import Mathlib

/-!
Verification of the Novel Weaver Studio phase-orchestration core.

The definitions below are shallow embeddings of the Python sources under
`src/backend/src`:

* `sanitizeRelativeArtifactPath` embeds `_sanitize_relative_artifact_path`
  (`api/routes.py` lines 40-57).
* Python strings are modelled as `List Char`; `str.strip` / `lstrip` /
  `rstrip` over ASCII whitespace are `pyStrip` / `pyLstrip` / `pyRstrip`,
  `str.split("/")` is `splitSlash`, and `"/".join` is `joinSlash`.
-/

namespace NovelWeaver

/-- Python whitespace class, as used by `str.strip` and by the regex
class backslash-s (space, tab, newline, carriage return, vertical tab,
form feed). -/
def pyWs (c : Char) : Bool :=
  c = ' ' || c = '\t' || c = '\n' || c = '\r' || c = '\x0b' || c = '\x0c'

/-- Python `str.lstrip()`. -/
def pyLstrip (s : List Char) : List Char :=
  s.dropWhile pyWs

/-- Python `str.rstrip()`. -/
def pyRstrip (s : List Char) : List Char :=
  (s.reverse.dropWhile pyWs).reverse

/-- Python `str.strip()`. -/
def pyStrip (s : List Char) : List Char :=
  pyRstrip (pyLstrip s)

/-- `leadsWith n s` is true when `n` is an initial segment of `s`
(the test Python performs with `str.startswith`, and the first step of a
literal match inside a regex). -/
def leadsWith : List Char → List Char → Bool
  | [], _ => true
  | _ :: _, [] => false
  | a :: as, b :: bs => a = b && leadsWith as bs

/-- `hasSub n s` is Python `n in s`: does `n` occur as a contiguous
substring of `s`? -/
def hasSub (n : List Char) : List Char → Bool
  | [] => leadsWith n []
  | c :: t => leadsWith n (c :: t) || hasSub n t

/-- Value of a decimal digit string (the `int(...)` applied to a
regex digit-run capture). -/
def digitsToNat (ds : List Char) : Nat :=
  ds.foldl (fun a c => a * 10 + (c.toNat - 48)) 0

/-- Python `s.split("/")`: splits on every slash, keeping empty pieces,
so the result is always nonempty. -/
def splitSlash : List Char → List (List Char)
  | [] => [[]]
  | c :: t =>
    if c = '/' then [] :: splitSlash t
    else
      match splitSlash t with
      | [] => [[c]]
      | q :: qs => (c :: q) :: qs

/-- Python `"/".join(parts)`. -/
def joinSlash : List (List Char) → List Char
  | [] => []
  | [a] => a
  | a :: b :: t => a ++ '/' :: joinSlash (b :: t)

/-- Backslash-to-forward-slash normalization
(`raw.replace("\\", "/")`). -/
def normalizeSlashes (raw : List Char) : List Char :=
  raw.map (fun c => if c = '\\' then '/' else c)

/-- Segment list of a path after normalization: split on `/` and drop
empty and single-dot segments
(`[p for p in safe.split("/") if p not in ("", ".")]`). -/
def pathParts (raw : List Char) : List (List Char) :=
  (splitSlash (normalizeSlashes raw)).filter (fun q => q ≠ [] ∧ q ≠ ['.'])

/-- `_sanitize_relative_artifact_path` from `api/routes.py` (lines 40-57):
strip, reject empty and absolute paths, normalize backslashes to slashes,
drop empty and single-dot segments, reject parent traversal, an empty
segment list, and a final segment equal to the reserved manifest filename
`project.json`; otherwise rejoin with slashes. -/
def sanitizeRelativeArtifactPath (path : List Char) : Except String (List Char) :=
  if pyStrip path = [] then .error "Artifact path cannot be empty"
  else if (pyStrip path).head? = some '/' ∨ (pyStrip path).head? = some '\\' then
    .error "Artifact path must be relative"
  else if (pathParts (pyStrip path)).any (fun q => q = ['.', '.']) then
    .error "Artifact path cannot contain parent traversal"
  else if pathParts (pyStrip path) = [] then .error "Artifact path cannot be empty"
  else if (pathParts (pyStrip path)).getLast? = some ("project.json".data) then
    .error "Refusing to write the manifest via artifact import"
  else .ok (joinSlash (pathParts (pyStrip path)))

/-!
Phase state inference, embedding `_infer_project_phase_state` from
`api/routes.py` (lines 284-325).  The artifact store is abstracted as an
existence oracle `ex : String → Bool` (the code calls `_artifact_exists`),
and the manifest state contributes the chapter list (each entry's
possibly-missing `number`) and the declared `total_chapters`.
-/

/-- Path of a chapter's finalized artifact under a directory convention. -/
def chapterFinalPath (conv : String) (n : Int) : String :=
  conv ++ "/chapter_" ++ toString n ++ "/final.md"

/-- The chapters-completed counter loop: one per chapter entry whose
number is present and whose finalized artifact exists under the current
(`phase7_outputs`) or legacy (`phase6_outputs`) convention. -/
def inferChaptersCompleted (ex : String → Bool) (chs : List (Option Int)) : Nat :=
  chs.foldl
    (fun acc och =>
      match och with
      | none => acc
      | some n =>
        if ex (chapterFinalPath "phase7_outputs" n)
            || ex (chapterFinalPath "phase6_outputs" n) then acc + 1
        else acc)
    0

/-- `total_chapters` resolution: the stored value if it is a positive
integer, else the length of the chapter list. -/
def resolvedTotalChapters (tc : Option Int) (chs : List (Option Int)) : Int :=
  match tc with
  | some t => if t ≤ 0 then (chs.length : Int) else t
  | none => (chs.length : Int)

/-- `has_outline`: either directory convention for the outline artifact. -/
def hasOutlineArtifact (ex : String → Bool) : Bool :=
  ex "phase6_outputs/outline.md" || ex "phase5_outputs/outline.md"

/-- `phase_completed_map` from `_infer_project_phase_state`, phase by
phase; out-of-range phases behave like the `dict.get(p, False)` default. -/
def phaseCompleted (ex : String → Bool) (chs : List (Option Int))
    (tc : Option Int) : Nat → Bool
  | 1 => ex "phase1_outputs/genre_tropes.md"
         && ex "phase1_outputs/style_sheet.md"
         && ex "phase1_outputs/context_bundle.md"
  | 2 => ex "phase2_outputs/series_outline.md"
  | 3 => ex "phase3_outputs/call_sheet.md"
  | 4 => ex "phase4_outputs/characters.md" && ex "phase4_outputs/worldbuilding.md"
  | 5 => ex "phase5_outputs/story_bible.md" || hasOutlineArtifact ex
  | 6 => hasOutlineArtifact ex
  | 7 => (0 < resolvedTotalChapters tc chs)
         && (resolvedTotalChapters tc chs ≤ (inferChaptersCompleted ex chs : Int))
  | 8 => ex "exports/FINAL_MANUSCRIPT.md"
  | _ => false

/-- `_infer_project_phase_state`: the completed-phase list, the current
phase (lowest phase not in the completed list, defaulting to 8), and the
chapters-completed count. -/
def inferPhaseState (ex : String → Bool) (chs : List (Option Int))
    (tc : Option Int) : List Nat × Nat × Nat :=
  let pc := (List.range' 1 8).filter (phaseCompleted ex chs tc)
  (pc,
   ((List.range' 1 8).find? (fun p => decide (p ∉ pc))).getD 8,
   inferChaptersCompleted ex chs)

/-- Existence oracle of the scenario named by the claim: exactly the three
phase-1 artifacts and the phase-2 series outline exist. -/
def phase12Oracle : String → Bool := fun s =>
  (["phase1_outputs/genre_tropes.md",
    "phase1_outputs/style_sheet.md",
    "phase1_outputs/context_bundle.md",
    "phase2_outputs/series_outline.md"] : List String).contains s

/-!
JSON documents and the manifest deep merge, embedding `novel_update_manifest`
and its inner `deep_merge` from `vault/novel_vault.py` (lines 146-195).
A Python dict is a key-ordered association list with unique keys.
-/

inductive Json where
  | null : Json
  | bool (b : Bool) : Json
  | num (n : Int) : Json
  | str (s : String) : Json
  | arr (items : List Json) : Json
  | obj (fields : List (String × Json)) : Json

/-- First-match field lookup (`base[key]` / `key in base`). -/
def lookupField (fields : List (String × Json)) (k : String) : Option Json :=
  (fields.find? (fun kv => kv.1 = k)).map (·.2)

/-- `key in base` as a Boolean. -/
def hasField (fields : List (String × Json)) (k : String) : Bool :=
  fields.any (fun kv => kv.1 = k)

/-- In-place overwrite of an existing key (`base[key] = value` when the key
is present): the entry keeps its position. -/
def setField (fields : List (String × Json)) (k : String) (v : Json) :
    List (String × Json) :=
  fields.map (fun kv => if kv.1 = k then (k, v) else kv)

/-- The key list of a document. -/
def keysOf (fields : List (String × Json)) : List String :=
  fields.map (·.1)

mutual

/-- `deep_merge(base, update)`: iterate the patch items in order. -/
def deepMergeFields : List (String × Json) → List (String × Json) →
    List (String × Json)
  | base, [] => base
  | base, (k, v) :: rest => deepMergeFields (deepMergeField base k v) rest

/-- One patch item: if both sides hold a mapping at the key, recurse;
otherwise the patch value wins, overwriting in place or appending. -/
def deepMergeField (base : List (String × Json)) (k : String) (v : Json) :
    List (String × Json) :=
  match lookupField base k, v with
  | some (Json.obj bo), Json.obj uo => setField base k (Json.obj (deepMergeFields bo uo))
  | _, _ => if hasField base k then setField base k v else base ++ [(k, v)]

end

/-- The value found at a key after a merge, as a function of the two
operand values (the branch structure of `deep_merge` at one key). -/
def mergeValue : Option Json → Json → Json
  | some (Json.obj bo), Json.obj uo => Json.obj (deepMergeFields bo uo)
  | _, v => v

/-!
The vault storage operations from `vault/novel_vault.py`.  The filesystem
is a state: the set of existing project directories, the text artifacts
keyed by (project, relative path), and the `project.json` manifests.
`novel_write_text` and `novel_update_manifest` call `mkdir(parents=True,
exist_ok=True)` and so cannot fail on a missing project, while
`novel_read_text`, `novel_get_previous_chapter_final` (for chapter
numbers above 1) and `novel_parse_outline` go through
`_ensure_project_exists`, which raises `FileNotFoundError`.
-/

inductive VaultErr where
  | notFound : VaultErr

structure VaultState where
  projects : List String
  files : List ((String × String) × String)
  manifests : List (String × List (String × Json))

/-- Artifact content at (project, path), if any. -/
def lookupFile (s : VaultState) (pid path : String) : Option String :=
  (s.files.find? (fun e => e.1.1 = pid ∧ e.1.2 = path)).map (·.2)

/-- Manifest of a project, if one was ever written. -/
def lookupManifest (s : VaultState) (pid : String) :
    Option (List (String × Json)) :=
  (s.manifests.find? (fun e => e.1 = pid)).map (·.2)

/-- Project-directory creation (`mkdir(parents=True, exist_ok=True)`). -/
def ensureDir (s : VaultState) (pid : String) : VaultState :=
  { s with projects := if s.projects.contains pid then s.projects else pid :: s.projects }

/-- `novel_write_text` (lines 30-65): create the project directory as
needed, replace the file wholesale, return the UTF-8 byte count. -/
def novelWriteText (s : VaultState) (pid path content : String) :
    Except VaultErr (VaultState × Nat) :=
  .ok ({ ensureDir s pid with
          files := ((pid, path), content) ::
            (s.files.filter (fun e => ¬(e.1.1 = pid ∧ e.1.2 = path))) },
        content.utf8ByteSize)

/-- `novel_read_text` (lines 68-96): `_ensure_project_exists`, then fail
on a missing artifact. -/
def novelReadText (s : VaultState) (pid path : String) : Except VaultErr String :=
  if ¬ s.projects.contains pid then .error .notFound
  else
    match lookupFile s pid path with
    | none => .error .notFound
    | some c => .ok c

/-- The default manifest skeleton created by `novel_update_manifest` when
`project.json` does not exist. -/
def defaultManifest (pid : String) : List (String × Json) :=
  [("project_id", Json.str pid), ("created_at", Json.null),
   ("updated_at", Json.null), ("state", Json.obj [])]

/-- `novel_update_manifest` (lines 146-195): create the project directory
as needed, load the manifest or initialize the skeleton, deep-merge the
patch, write the whole document back. -/
def novelUpdateManifest (s : VaultState) (pid : String)
    (patch : List (String × Json)) :
    Except VaultErr (VaultState × List (String × Json)) :=
  let merged := deepMergeFields ((lookupManifest s pid).getD (defaultManifest pid)) patch
  .ok ({ ensureDir s pid with
          manifests := (pid, merged) :: s.manifests.filter (fun e => ¬ e.1 = pid) },
        merged)

/-- `novel_get_previous_chapter_final` (lines 99-143): the sentinel for
chapter numbers at most 1 is returned before any storage access; above 1
the project must exist, then the finalized artifact of the previous
chapter is looked up under `phase6_outputs`, falling back to the
first-draft artifact, and finally to the sentinel plus a warning.  The
result pairs the text with the optional warning string. -/
def novelGetPreviousChapterFinal (s : VaultState) (pid : String) (n : Int) :
    Except VaultErr (String × Option String) :=
  if n ≤ 1 then .ok ("NONE", none)
  else if ¬ s.projects.contains pid then .error .notFound
  else
    match lookupFile s pid ("phase6_outputs/chapter_" ++ toString (n - 1) ++ "/final.md") with
    | some c => .ok (c, none)
    | none =>
      match lookupFile s pid
          ("phase6_outputs/chapter_" ++ toString (n - 1) ++ "/first_draft.md") with
      | some c => .ok (c, none)
      | none => .ok ("NONE", some ("Chapter " ++ toString (n - 1) ++ " not found"))

/-- Vault state of the C3 failing input: the project exists and chapter 4
was finalized by the phase-7 chapter workflow, which writes under the
current `phase7_outputs` convention (`phase7_chapter_writing.py`,
`chapter_dir = f"phase7_outputs/chapter_{n}"`). -/
def c3State : VaultState :=
  { projects := ["p"],
    files := [(("p", "phase7_outputs/chapter_4/final.md"), "FINAL CHAPTER 4")],
    manifests := [] }

/-- The empty vault: no project was ever created. -/
def emptyVault : VaultState := { projects := [], files := [], manifests := [] }

/-!
The phase-2 review loop, embedding
`Phase2BrainstormingWorkflow._generate_series_outline` from
`workflows/phase2_brainstorming.py` (lines 275-457).  The generation
capability is an opaque oracle `regen (draft, revision notes) → draft`;
the operator's responses arrive as a stream of key-value maps, one
consumed per suspend/resume wait (the workflow signal overwrites the
single `_human_input` slot, so each wait takes the next inbound response
whatever its keys).  Response `i` of the stream is the one consumed by
the i-th wait: decisions sit at even positions, revision notes at the
following odd positions.
-/

/-- A key-value response map sent through the workflow signal. -/
abbrev Response := List (String × String)

/-- `response.get(key, "")`. -/
def getResponseValue (r : Response) (k : String) : List Char :=
  (((r.find? (fun kv => kv.1 = k)).map (·.2)).getD "").data

/-- `decision.get("decision", "").strip().upper()`. -/
def normDecision (stream : Nat → Response) (pos : Nat) : List Char :=
  (pyStrip (getResponseValue (stream pos) "decision")).map Char.toUpper

def approveKey : List Char := "APPROVE".data

def reviseKey : List Char := "REVISE".data

inductive LoopOutcome where
  | approved : LoopOutcome
  | defaultApproved : LoopOutcome
  | exhausted : LoopOutcome

/-- The `for revision_count in range(max_revisions)` review loop: classify
the decision text by case-insensitive substring; APPROVE ends the loop
with the current draft; REVISE collects revision notes via another wait,
regenerates, and loops; anything else ends the loop as approved by
default; an exhausted counter returns the latest draft. -/
def phase2ReviewLoopAux (stream : Nat → Response)
    (regen : List Char → List Char → List Char) :
    Nat → Nat → List Char → List Char × LoopOutcome
  | _, 0, draft => (draft, .exhausted)
  | pos, fuel + 1, draft =>
    if hasSub approveKey (normDecision stream pos) then (draft, .approved)
    else if hasSub reviseKey (normDecision stream pos) then
      phase2ReviewLoopAux stream regen (pos + 2) fuel
        (regen draft (getResponseValue (stream (pos + 1)) "revision_notes"))
    else (draft, .defaultApproved)

/-- `_generate_series_outline`: auto-approve skips review entirely,
otherwise the bounded loop runs with `max_revisions = 5`. -/
def phase2GenerateSeriesOutline (autoApprove : Bool) (stream : Nat → Response)
    (regen : List Char → List Char → List Char) (d0 : List Char) :
    List Char × LoopOutcome :=
  if autoApprove then (d0, .approved)
  else phase2ReviewLoopAux stream regen 0 5 d0

/-- The draft produced by a run of consecutive REVISE rounds. -/
def reviseChainFrom (stream : Nat → Response)
    (regen : List Char → List Char → List Char) :
    Nat → Nat → List Char → List Char
  | _, 0, d => d
  | pos, fuel + 1, d =>
    reviseChainFrom stream regen (pos + 2) fuel
      (regen d (getResponseValue (stream (pos + 1)) "revision_notes"))

/-!
The human review gate.  Phase 7 (`Phase7SingleChapterWorkflow` in
`workflows/phase7_chapter_writing.py`): the signal appends to the
`_human_inputs` inbox (lines 240-242), `_await_human_input`
(lines 244-289) waits until some inbox entry holds at least one expected
key, removes the first such entry, and reinserts its unexpected keys at
the front of the inbox.  Phase 2 (`phase2_brainstorming.py` lines 79-84
and 359-371): the signal overwrites the single `_human_input` slot and
the wait fires as soon as the slot is non-None, regardless of keys.
-/

/-- `any(k in item for k in expected_outputs)`. -/
def responseMatches (expected : List String) (r : Response) : Bool :=
  expected.any (fun k => r.any (fun kv => kv.1 = k))

/-- The phase-7 wait condition over the inbox. -/
def inboxSatisfied (inbox : List Response) (expected : List String) : Bool :=
  inbox.any (fun item => responseMatches expected item)

/-- Find and remove the first inbox entry holding an expected key
(`match_index` + `pop`). -/
def popMatch (expected : List String) : List Response → Option (Response × List Response)
  | [] => none
  | r :: rs =>
    if responseMatches expected r then some (r, rs)
    else
      match popMatch expected rs with
      | some (m, rest) => some (m, r :: rest)
      | none => none

/-- `_await_human_input` once the wait condition fires: pop the first
matching response and reinsert its non-expected keys at the inbox front;
`none` while no matching response has arrived (the workflow stays
suspended). -/
def awaitHumanInput (inbox : List Response) (expected : List String) :
    Option (Response × List Response) :=
  match popMatch expected inbox with
  | none => none
  | some (received, rest) =>
    if received.filter (fun kv => ¬ expected.contains kv.1) = [] then
      some (received, rest)
    else
      some (received, received.filter (fun kv => ¬ expected.contains kv.1) :: rest)

/-- The phase-2 signal handler `human_input_received`: overwrite the
single slot. -/
def phase2SignalReceived (_slot : Option Response) (inputs : Response) :
    Option Response :=
  some inputs

/-- The phase-2 wait condition: `self._human_input is not None`. -/
def phase2WaitSatisfied (slot : Option Response) : Bool :=
  slot.isSome

/-!
The outline parser, embedding `novel_parse_outline` from
`vault/novel_vault.py` (lines 198-284).  The heading pattern is the
multiline regex `### Chapter (digits) separator (title to end of line)`
and the fallback is the markdown-table-row pattern; both are transcribed
at character level including the regex backtracking behaviour (the
whitespace class may cross newlines, star runs are bounded by two, the
title group of a table cell is lazy).  `findall` attempts a match at each
line start and resumes after the end of a successful match.
-/

/-- The character class of the regex dot: any character but a newline. -/
def notNL (c : Char) : Bool :=
  c ≠ '\n'

/-- Match `^###\unicode-escape` heading: after `###` comes mandatory
whitespace, the literal `Chapter`, mandatory whitespace, a digit run, an
optional whitespace run, one of the separators colon/hyphen/en-dash/em-dash,
then optional whitespace and a nonempty title running to the end of the
line.  Returns (chapter number, stripped title, rest after the match). -/
def matchHeadingAt (s : List Char) : Option (Nat × List Char × List Char) :=
  match s with
  | '#' :: '#' :: '#' :: r0 =>
    if r0.takeWhile pyWs = [] then none
    else
      let r1 := r0.dropWhile pyWs
      if leadsWith ("Chapter".data) r1 then
        let r2 := r1.drop 7
        if r2.takeWhile pyWs = [] then none
        else
          let r3 := r2.dropWhile pyWs
          let ds := r3.takeWhile Char.isDigit
          if ds = [] then none
          else
            let r4 := r3.drop ds.length
            match r4.dropWhile pyWs with
            | c :: r6 =>
              if c = ':' || c = '-' || c = '–' || c = '—' then
                let tail := r6.dropWhile pyWs
                match tail with
                | _ :: _ =>
                  let title := tail.takeWhile notNL
                  some (digitsToNat ds, pyStrip title, tail.drop title.length)
                | [] =>
                  -- the rest of the content is a whitespace run: the greedy
                  -- whitespace star backtracks to leave the last non-newline
                  -- whitespace character as the title, which strips to empty,
                  -- and the match ends right after it; a run of newlines only
                  -- admits no title
                  let run := r6.takeWhile pyWs
                  if run.all (fun c => c = '\n') then none
                  else some (digitsToNat ds, [],
                    (run.reverse.takeWhile (fun c => c = '\n')).reverse)
              else none
            | [] => none
      else none
  | _ => none

/-- Skip to the start of the next line. -/
def dropLine (s : List Char) : List Char :=
  (s.dropWhile notNL).drop 1

/-- `findall` driver: attempt the matcher at each line start, resuming
after the end of each successful match.  The fuel is the input length,
which each step strictly decreases. -/
def scanChaptersAux (matcher : List Char → Option (Nat × List Char × List Char)) :
    Nat → List Char → List (Nat × List Char)
  | 0, _ => []
  | fuel + 1, s =>
    if s = [] then []
    else
      match matcher s with
      | some (n, t, rest) => (n, t) :: scanChaptersAux matcher fuel (dropLine rest)
      | none => scanChaptersAux matcher fuel (dropLine s)

/-- All heading-pattern chapter captures of the outline text. -/
def scanHeadings (s : List Char) : List (Nat × List Char) :=
  scanChaptersAux matchHeadingAt (s.length + 1) s

/-- The tail of a table cell: an optional star run of at most two, then
optional whitespace, then the closing bar; returns the rest after the
bar.  A star run longer than two can never match. -/
def tailBarMatch (s : List Char) : Option (List Char) :=
  if (s.takeWhile (fun c => c = '*')).length ≤ 2 then
    match (s.drop (s.takeWhile (fun c => c = '*')).length).dropWhile pyWs with
    | '|' :: r => some r
    | _ => none
  else none

/-- The lazy nonempty bar-free title group: extend one character at a
time (never across a bar) until the cell tail matches. -/
def lazyTitle : Nat → List Char → List Char → Option (List Char × List Char)
  | 0, _, _ => none
  | fuel + 1, acc, s =>
    match s with
    | [] => none
    | c :: rest =>
      if c = '|' then none
      else
        match tailBarMatch rest with
        | some r => some (acc ++ [c], r)
        | none => lazyTitle fuel (acc ++ [c]) rest

/-- Leading stars of the title cell, greedily two then one then none. -/
def tryStars : Nat → List Char → Option (List Char × List Char)
  | 0, u => lazyTitle (u.length + 1) [] u
  | k + 1, u =>
    if leadsWith (List.replicate (k + 1) '*') u then
      match lazyTitle ((u.drop (k + 1)).length + 1) [] (u.drop (k + 1)) with
      | some res => some res
      | none => tryStars k u
    else tryStars k u

/-- Leading whitespace of the title cell, greedily longest first. -/
def cell2Go (s : List Char) : Nat → Option (List Char × List Char)
  | 0 => tryStars 2 s
  | w + 1 =>
    match tryStars 2 (s.drop (w + 1)) with
    | some res => some res
    | none => cell2Go s w

/-- The whole second cell `whitespace stars title stars whitespace bar`. -/
def cell2Match (s : List Char) : Option (List Char × List Char) :=
  cell2Go s (s.takeWhile pyWs).length

/-- Match a markdown table row `| stars digits stars | stars title stars |`
at a line start; returns (number, raw title group, rest after the second
bar). -/
def matchTableAt (s : List Char) : Option (Nat × List Char × List Char) :=
  match s with
  | '|' :: r0 =>
    let r1 := r0.dropWhile pyWs
    if (r1.takeWhile (fun c => c = '*')).length ≤ 2 then
      let r2 := r1.drop (r1.takeWhile (fun c => c = '*')).length
      let ds := r2.takeWhile Char.isDigit
      if ds = [] then none
      else
        match tailBarMatch (r2.drop ds.length) with
        | none => none
        | some r4 =>
          match cell2Match r4 with
          | none => none
          | some (title, rest) => some (digitsToNat ds, title, rest)
    else none
  | _ => none

/-- The per-row title cleaning: strip, drop leading and trailing star
runs, strip again. -/
def cleanTableTitle (t : List Char) : List Char :=
  pyStrip (((pyStrip t).dropWhile (fun c => c = '*')).reverse.dropWhile
    (fun c => c = '*')).reverse

/-- All table-row chapter captures of the outline text, cleaned. -/
def scanTable (s : List Char) : List (Nat × List Char) :=
  (scanChaptersAux matchTableAt (s.length + 1) s).map
    (fun p => (p.1, cleanTableTitle p.2))

/-- `len(set(int_nums)) != len(int_nums)`. -/
def hasDupNums : List Nat → Bool
  | [] => false
  | n :: rest => rest.contains n || hasDupNums rest

/-- `int_nums == sorted(int_nums)`. -/
def nonDecr : List Nat → Bool
  | [] => true
  | [_] => true
  | a :: b :: rest => a ≤ b && nonDecr (b :: rest)

/-- The repair pass renumbering `idx + 1` in encounter order. -/
def renumber (cs : List (Nat × List Char)) : List (Nat × List Char) :=
  (cs.enum).map (fun p => (p.1 + 1, p.2.2))

/-- The repair pass: renumber only on duplicate or non-monotonic
extracted numbers (skipped entirely for an empty chapter list). -/
def repairNumbers (cs : List (Nat × List Char)) : List (Nat × List Char) :=
  if cs = [] then cs
  else if hasDupNums (cs.map Prod.fst) || !(nonDecr (cs.map Prod.fst)) then
    renumber cs
  else cs

/-- The chapter extraction of `novel_parse_outline` over the outline
text: heading pattern first, the table fallback only when the heading
pattern yields zero matches, then the repair pass. -/
def parseOutlineChapters (content : List Char) : List (Nat × List Char) :=
  repairNumbers
    (if scanHeadings content = [] then scanTable content else scanHeadings content)

/-- `novel_parse_outline` over the vault: `_ensure_project_exists`, fail
NotFound when `phase5_outputs/outline.md` is absent, else parse; the
Boolean records whether the manifest side effect (total-chapter count and
chapter list patch) ran, which happens exactly when some chapter was
extracted. -/
def novelParseOutline (s : VaultState) (pid : String) :
    Except VaultErr (List (Nat × List Char) × Bool) :=
  if ¬ s.projects.contains pid then .error .notFound
  else
    match lookupFile s pid "phase5_outputs/outline.md" with
    | none => .error .notFound
    | some content =>
      .ok (parseOutlineChapters content.data,
        !(parseOutlineChapters content.data).isEmpty)

/-- The generated-outline validation of the phase-6 outline workflow
(`phase6_chapter_outline.py` lines 128-132): an empty or whitespace-only
outline, or one with no occurrence of the literal `### Chapter`, raises
ValueError before the outline is saved or parsed. -/
def outlineWorkflowGuard (outline : List Char) : Except String (List Char) :=
  if pyStrip outline = [] then .error "Generated outline was empty"
  else if ¬ hasSub ("### Chapter".data) outline then
    .error "Generated outline did not include chapter headings"
  else .ok outline

/-- Vault of the C9 counterexample: the outline artifact exists and
passes the workflow guard, yet no chapter is extractable. -/
def c9State : VaultState :=
  { projects := ["p"],
    files := [(("p", "phase5_outputs/outline.md"), "### Chapter one: Intro\n")],
    manifests := [] }

/-!
The context bundle section upsert, embedding
`_upsert_context_bundle_section` from `api/routes.py` (lines 127-154).
The header-line search is the multiline regex `(^##\s+HEADER\s*$)`; the
section end is the next `^##\s+` line start after the matched header
line (or the document end).  The whitespace class may cross newlines, so
the match end of the header group sits at the last newline of the
whitespace run following the header (or the document end), exactly as
the regex backtracks the trailing `\s*` to let the dollar anchor hold.
-/

/-- Try the header-line pattern at a line start: `##`, mandatory
whitespace, the literal (stripped) header, then optional whitespace up to
an end of line.  Returns the remainder of the document after the match
end (which starts at a newline, or is empty at document end). -/
def matchHeaderHere (h s : List Char) : Option (List Char) :=
  if leadsWith ['#', '#'] s then
    if (s.drop 2).takeWhile pyWs = [] then none
    else if leadsWith h ((s.drop 2).dropWhile pyWs) then
      if ((((s.drop 2).dropWhile pyWs).drop h.length).dropWhile pyWs) = [] then some []
      else
        match ((((s.drop 2).dropWhile pyWs).drop h.length).takeWhile pyWs).reverse.findIdx?
            (fun c => c = '\n') with
        | some j =>
          some ((((s.drop 2).dropWhile pyWs).drop h.length).drop
            (((((s.drop 2).dropWhile pyWs).drop h.length).takeWhile pyWs).length - 1 - j))
        | none => none
    else none
  else none

/-- `re.search` for the header line: scan line starts for the first
match, returning the text before the match start and the text after the
match end. -/
def findHeaderSplit (h : List Char) : Nat → List Char → Option (List Char × List Char)
  | 0, _ => none
  | fuel + 1, s =>
    match matchHeaderHere h s with
    | some after => some ([], after)
    | none =>
      match s.drop ((s.takeWhile notNL).length) with
      | [] => none
      | nl :: rest =>
        match findHeaderSplit h fuel rest with
        | some (pre, after) =>
          some ((s.takeWhile notNL) ++ nl :: pre, after)
        | none => none

/-- Does a `^##\s+` match start here? -/
def isH2Start (s : List Char) : Bool :=
  match s with
  | '#' :: '#' :: c :: _ => pyWs c
  | _ => false

/-- `re.search` for the next level-2 heading line start: splits the text
at the first such line start, or returns it whole. -/
def findNextH2Split : Nat → List Char → List Char × List Char
  | 0, s => (s, [])
  | fuel + 1, s =>
    if isH2Start s then ([], s)
    else
      match s.drop ((s.takeWhile notNL).length) with
      | [] => (s, [])
      | nl :: rest =>
        ((s.takeWhile notNL)
            ++ nl :: (findNextH2Split fuel rest).1,
          (findNextH2Split fuel rest).2)

/-- `_upsert_context_bundle_section`: no-op on an empty header or body;
replace the matched section wholesale when the header line exists,
normalizing the preceding text's trailing whitespace; append a fresh
section after normalizing trailing whitespace otherwise. -/
def upsertContextBundleSection (bundle header content : List Char) : List Char :=
  if pyStrip header = [] then bundle
  else if pyStrip content = [] then bundle
  else
    match findHeaderSplit (pyStrip header) ((pyRstrip bundle ++ ['\n']).length + 1)
        (pyRstrip bundle ++ ['\n']) with
    | none =>
      pyRstrip (pyRstrip (pyRstrip bundle ++ ['\n']) ++ "\n\n## ".data
          ++ pyStrip header ++ "\n\n".data ++ pyStrip content ++ ['\n']) ++ ['\n']
    | some (pre, after) =>
      pyRstrip (pyRstrip pre ++ "\n\n## ".data ++ pyStrip header ++ "\n\n".data
          ++ pyStrip content ++ "\n\n".data
          ++ pyLstrip (findNextH2Split (after.length + 1) after).2) ++ ['\n']

end NovelWeaver

namespace NovelWeaver

/-! ### Helper lemmas about `splitSlash` and `joinSlash` -/

theorem splitSlash_ne_nil (s : List Char) : splitSlash s ≠ [] := by
  cases s with
  | nil => simp [splitSlash]
  | cons c t =>
    simp only [splitSlash]
    split
    · simp
    · cases h : splitSlash t <;> simp

theorem mem_splitSlash_no_slash (s : List Char) :
    ∀ q ∈ splitSlash s, '/' ∉ q := by
  induction s with
  | nil => intro q hq; simp [splitSlash] at hq; simp [hq]
  | cons c t ih =>
    intro q hq
    simp only [splitSlash] at hq
    split at hq
    · rcases List.mem_cons.mp hq with hq | hq
      · simp [hq]
      · exact ih q hq
    · rename_i hc
      cases h : splitSlash t with
      | nil => exact absurd h (splitSlash_ne_nil t)
      | cons q0 qs =>
        rw [h] at hq
        rcases List.mem_cons.mp hq with hq | hq
        · subst hq
          intro hmem
          rcases List.mem_cons.mp hmem with h1 | h1
          · exact hc h1.symm
          · exact ih q0 (h ▸ List.mem_cons_self q0 qs) h1
        · exact ih q (h ▸ List.mem_cons_of_mem q0 hq)

theorem mem_of_mem_splitSlash (s : List Char) :
    ∀ q ∈ splitSlash s, ∀ c ∈ q, c ∈ s := by
  induction s with
  | nil => intro q hq; simp [splitSlash] at hq; simp [hq]
  | cons a t ih =>
    intro q hq c hc
    simp only [splitSlash] at hq
    split at hq
    · rcases List.mem_cons.mp hq with hq | hq
      · simp [hq] at hc
      · exact List.mem_cons_of_mem a (ih q hq c hc)
    · cases h : splitSlash t with
      | nil => exact absurd h (splitSlash_ne_nil t)
      | cons q0 qs =>
        rw [h] at hq
        rcases List.mem_cons.mp hq with hq | hq
        · subst hq
          rcases List.mem_cons.mp hc with h1 | h1
          · exact h1 ▸ List.mem_cons_self a t
          · exact List.mem_cons_of_mem a
              (ih q0 (h ▸ List.mem_cons_self q0 qs) c h1)
        · exact List.mem_cons_of_mem a
            (ih q (h ▸ List.mem_cons_of_mem q0 hq) c hc)

theorem splitSlash_no_slash (a : List Char) (ha : '/' ∉ a) :
    splitSlash a = [a] := by
  induction a with
  | nil => simp [splitSlash]
  | cons c t ih =>
    have hc : c ≠ '/' := fun h => ha (h ▸ List.mem_cons_self c t)
    have ht : '/' ∉ t := fun h => ha (List.mem_cons_of_mem c h)
    simp only [splitSlash, if_neg hc, ih ht]

theorem splitSlash_append_slash (a r : List Char) (ha : '/' ∉ a) :
    splitSlash (a ++ '/' :: r) = a :: splitSlash r := by
  induction a with
  | nil => simp [splitSlash]
  | cons c t ih =>
    have hc : c ≠ '/' := fun h => ha (h ▸ List.mem_cons_self c t)
    have ht : '/' ∉ t := fun h => ha (List.mem_cons_of_mem c h)
    rw [List.cons_append]
    simp only [splitSlash, if_neg hc, ih ht]

theorem splitSlash_joinSlash (parts : List (List Char))
    (hne : parts ≠ []) (hs : ∀ q ∈ parts, '/' ∉ q) :
    splitSlash (joinSlash parts) = parts := by
  induction parts with
  | nil => exact absurd rfl hne
  | cons a t ih =>
    cases t with
    | nil =>
      simp only [joinSlash]
      exact splitSlash_no_slash a (hs a (List.mem_cons_self a []))
    | cons b u =>
      simp only [joinSlash]
      rw [splitSlash_append_slash a _ (hs a (List.mem_cons_self a _))]
      rw [ih (by simp) (fun q hq => hs q (List.mem_cons_of_mem a hq))]

theorem mem_joinSlash (parts : List (List Char)) (c : Char) :
    c ∈ joinSlash parts → c = '/' ∨ ∃ q ∈ parts, c ∈ q := by
  induction parts with
  | nil => intro h; simp [joinSlash] at h
  | cons a t ih =>
    cases t with
    | nil =>
      intro h
      simp only [joinSlash] at h
      exact Or.inr ⟨a, List.mem_cons_self a [], h⟩
    | cons b u =>
      intro h
      simp only [joinSlash] at h
      rcases List.mem_append.mp h with h2 | h2
      · exact Or.inr ⟨a, List.mem_cons_self a _, h2⟩
      · rcases List.mem_cons.mp h2 with h3 | h3
        · exact Or.inl h3
        · rcases ih h3 with h4 | ⟨q, hq, hcq⟩
          · exact Or.inl h4
          · exact Or.inr ⟨q, List.mem_cons_of_mem a hq, hcq⟩

theorem joinSlash_head? (a : List Char) (t : List (List Char)) :
    a ≠ [] → (joinSlash (a :: t)).head? = a.head? := by
  intro ha
  cases t with
  | nil => simp [joinSlash]
  | cons b u =>
    cases a with
    | nil => exact absurd rfl ha
    | cons x xs => simp [joinSlash]

/-! ### C8: artifact path sanitization -/

/-- **C8.** Every accepted artifact path is relative (does not begin with a
slash), fully forward-slash normalized (no backslash survives), has only
nonempty segments none of which is a single dot or a parent-traversal
dot-dot, and its final segment is not the reserved manifest filename;
concretely, the traversal path and the bare manifest filename are rejected
while a normal phase-output path is accepted unchanged. -/
theorem c8_path_sanitization :
    (∀ p out : List Char, sanitizeRelativeArtifactPath p = .ok out →
      out ≠ [] ∧
      out.head? ≠ some '/' ∧
      (∀ c ∈ out, c ≠ '\\') ∧
      (∀ seg ∈ splitSlash out, seg ≠ [] ∧ seg ≠ ['.'] ∧ seg ≠ ['.', '.']) ∧
      (splitSlash out).getLast? ≠ some ("project.json".data)) ∧
    (sanitizeRelativeArtifactPath ("../../etc/passwd".data)).isOk = false ∧
    sanitizeRelativeArtifactPath ("phase1_outputs/genre_tropes.md".data)
      = .ok ("phase1_outputs/genre_tropes.md".data) ∧
    (sanitizeRelativeArtifactPath ("project.json".data)).isOk = false := by
  refine ⟨?_, by decide, by rfl, by decide⟩
  intro p out h
  simp only [sanitizeRelativeArtifactPath] at h
  split at h
  · exact absurd h (by simp)
  split at h
  · exact absurd h (by simp)
  split at h
  · exact absurd h (by simp)
  split at h
  · exact absurd h (by simp)
  split at h
  · exact absurd h (by simp)
  rename_i hempty hrel hdots hpartsne hlast
  have hout : out = joinSlash (pathParts (pyStrip p)) :=
    ((Except.ok.injEq _ _).mp h).symm
  -- facts about every segment of the final part list
  have hseg : ∀ q ∈ pathParts (pyStrip p),
      q ≠ [] ∧ q ≠ ['.'] ∧ q ≠ ['.', '.'] ∧ '/' ∉ q ∧ '\\' ∉ q := by
    intro q hq
    have hq' := List.mem_filter.mp hq
    have hmem : q ∈ splitSlash (normalizeSlashes (pyStrip p)) := hq'.1
    have hcond : q ≠ [] ∧ q ≠ ['.'] := by
      have := hq'.2
      simpa using this
    have hnds : q ≠ ['.', '.'] := by
      intro hq2
      have : (pathParts (pyStrip p)).any (fun q => q = ['.', '.']) = true := by
        rw [List.any_eq_true]
        exact ⟨q, hq, by simp [hq2]⟩
      exact hdots this
    have hnoslash : '/' ∉ q := mem_splitSlash_no_slash _ q hmem
    have hnobs : '\\' ∉ q := by
      intro hb
      have hc := mem_of_mem_splitSlash _ q hmem '\\' hb
      simp only [normalizeSlashes, List.mem_map] at hc
      rcases hc with ⟨c0, _, hc0⟩
      by_cases h0 : c0 = '\\' <;> simp [h0] at hc0
    exact ⟨hcond.1, hcond.2, hnds, hnoslash, hnobs⟩
  have hsplit : splitSlash out = pathParts (pyStrip p) := by
    rw [hout]
    exact splitSlash_joinSlash _ hpartsne (fun q hq => (hseg q hq).2.2.2.1)
  obtain ⟨a, t, hat⟩ : ∃ a t, pathParts (pyStrip p) = a :: t := by
    cases hpp : pathParts (pyStrip p) with
    | nil => exact absurd hpp hpartsne
    | cons a t => exact ⟨a, t, rfl⟩
  have ha : a ∈ pathParts (pyStrip p) := hat ▸ List.mem_cons_self a t
  have hane : a ≠ [] := (hseg a ha).1
  refine ⟨?_, ?_, ?_, ?_, ?_⟩
  · -- out nonempty
    rw [hout, hat]
    cases t with
    | nil => simpa [joinSlash] using hane
    | cons b u =>
      simp only [joinSlash]
      intro hcon
      rcases List.append_eq_nil.mp hcon with ⟨_, h2⟩
      exact absurd h2 (by simp)
  · -- does not start with a slash
    rw [hout, hat, joinSlash_head? a t hane]
    intro hhd
    have : '/' ∈ a := by
      cases a with
      | nil => exact absurd rfl hane
      | cons x xs =>
        simp only [List.head?_cons, Option.some.injEq] at hhd
        exact hhd ▸ List.mem_cons_self x xs
    exact (hseg a ha).2.2.2.1 this
  · -- no backslash anywhere
    intro c hc
    rw [hout] at hc
    rcases mem_joinSlash _ c hc with h1 | ⟨q, hq, hcq⟩
    · simp [h1]
    · intro hb
      exact (hseg q hq).2.2.2.2 (hb ▸ hcq)
  · -- segment conditions
    intro seg hsegmem
    rw [hsplit] at hsegmem
    exact ⟨(hseg seg hsegmem).1, (hseg seg hsegmem).2.1, (hseg seg hsegmem).2.2.1⟩
  · -- final segment is not the manifest filename
    rw [hsplit]
    exact hlast

/-- Witness for C8: the general soundness conjunct applied at the concrete
accepted path, with its equality hypothesis discharged by rfl. -/
theorem c8_path_sanitization_witness :
    ("phase1_outputs/genre_tropes.md".data : List Char) ≠ [] ∧
    ("phase1_outputs/genre_tropes.md".data : List Char).head? ≠ some '/' :=
  ⟨(c8_path_sanitization.1 ("phase1_outputs/genre_tropes.md".data)
      ("phase1_outputs/genre_tropes.md".data) (by rfl)).1,
   (c8_path_sanitization.1 ("phase1_outputs/genre_tropes.md".data)
      ("phase1_outputs/genre_tropes.md".data) (by rfl)).2.1⟩

/-! ### C1: phase state inference -/

theorem find?_le_of_pairwise_le (l : List Nat) (pred : Nat → Bool) (a : Nat)
    (hp : l.Pairwise (· ≤ ·)) (hf : l.find? pred = some a) :
    ∀ b ∈ l, pred b = true → a ≤ b := by
  induction l with
  | nil => simp at hf
  | cons c t ih =>
    rw [List.find?_cons] at hf
    rcases List.pairwise_cons.mp hp with ⟨hc, ht⟩
    intro b hb hpredb
    split at hf
    · cases hf
      rcases List.mem_cons.mp hb with h1 | h1
      · exact h1 ▸ le_refl _
      · exact hc b h1
    · rcases List.mem_cons.mp hb with h1 | h1
      · rename_i hcf
        rw [h1] at hpredb
        exact absurd hpredb (by simp [hcf])
      · exact ih ht hf b h1 hpredb

/-- **C1 counterexample.** There is no fixed set of expected artifacts for
phase 5 whose joint existence coincides with phase 5 membership in the
inferred completed-phase list: the code accepts a state holding only the
story-bible artifact, a state holding only the outline artifact, and
rejects the empty state, which no all-must-exist artifact set can do.
Hence "phasesCompleted is exactly the set of phases whose fixed expected
artifacts all exist" is false of `_infer_project_phase_state`. -/
theorem c1_no_fixed_artifact_set :
    ¬ ∃ required : List String,
        ∀ ex : String → Bool,
          (5 ∈ (inferPhaseState ex [] none).1 ↔ ∀ a ∈ required, ex a = true) := by
  rintro ⟨S, hS⟩
  have h5B : 5 ∈ (inferPhaseState
      (fun s => s == "phase5_outputs/story_bible.md") [] none).1 := by decide
  have h5O : 5 ∈ (inferPhaseState
      (fun s => s == "phase6_outputs/outline.md") [] none).1 := by decide
  have hBall := (hS (fun s => s == "phase5_outputs/story_bible.md")).mp h5B
  have hOall := (hS (fun s => s == "phase6_outputs/outline.md")).mp h5O
  have hSnil : S = [] := by
    cases S with
    | nil => rfl
    | cons a t =>
      have h1 : a = "phase5_outputs/story_bible.md" := by
        have := hBall a (List.mem_cons_self a t)
        simpa [beq_iff_eq] using this
      have h2 : a = "phase6_outputs/outline.md" := by
        have := hOall a (List.mem_cons_self a t)
        simpa [beq_iff_eq] using this
      rw [h1] at h2
      exact absurd h2 (by decide)
  subst hSnil
  have h5N : 5 ∈ (inferPhaseState (fun _ => false) [] none).1 :=
    (hS (fun _ => false)).mpr (by intro a ha; simp at ha)
  exact absurd h5N (by decide)

/-- **C1 (amended).** `_infer_project_phase_state` returns as
`phasesCompleted` exactly the phases in 1..8 whose per-phase completion
predicate holds (phase 4 requiring both the characters artifact and the
worldbuilding artifact; phase 5 accepting the story bible or an outline;
phase 7 comparing finalized chapters against the declared total), and as
`currentPhase` the lowest-numbered phase not in that set, or 8 when all
eight are complete; in the scenario with only the three phase-1 artifacts
and the phase-2 series outline present it returns phasesCompleted = [1, 2]
and currentPhase = 3. -/
theorem c1_phase_inference_amended (ex : String → Bool)
    (chs : List (Option Int)) (tc : Option Int) :
    (∀ p : Nat, p ∈ (inferPhaseState ex chs tc).1 ↔
        (1 ≤ p ∧ p ≤ 8 ∧ phaseCompleted ex chs tc p = true)) ∧
    (phaseCompleted ex chs tc 4
      = (ex "phase4_outputs/characters.md" && ex "phase4_outputs/worldbuilding.md")) ∧
    ((∀ p, 1 ≤ p → p ≤ 8 → phaseCompleted ex chs tc p = true) →
        (inferPhaseState ex chs tc).2.1 = 8) ∧
    (∀ p, 1 ≤ p → p ≤ 8 → phaseCompleted ex chs tc p = false →
        (inferPhaseState ex chs tc).2.1 ≤ p) ∧
    ((inferPhaseState ex chs tc).2.1 = 8 ∨
      (1 ≤ (inferPhaseState ex chs tc).2.1 ∧ (inferPhaseState ex chs tc).2.1 ≤ 8 ∧
        phaseCompleted ex chs tc ((inferPhaseState ex chs tc).2.1) = false)) ∧
    inferPhaseState phase12Oracle [] none = ([1, 2], 3, 0) := by
  have hmem : ∀ p : Nat, p ∈ (inferPhaseState ex chs tc).1 ↔
      (1 ≤ p ∧ p ≤ 8 ∧ phaseCompleted ex chs tc p = true) := by
    intro p
    simp only [inferPhaseState, List.mem_filter, List.mem_range'_1]
    constructor
    · rintro ⟨⟨h1, h2⟩, h3⟩
      exact ⟨h1, by omega, h3⟩
    · rintro ⟨h1, h2, h3⟩
      exact ⟨⟨h1, by omega⟩, h3⟩
  refine ⟨hmem, rfl, ?_, ?_, ?_, by decide⟩
  · -- all phases complete: current phase is 8
    intro hall
    have hnone : (List.range' 1 8).find?
        (fun p => decide (p ∉ (List.range' 1 8).filter (phaseCompleted ex chs tc)))
          = none := by
      rw [List.find?_eq_none]
      intro x hx
      rcases List.mem_range'_1.mp hx with ⟨hx1, hx2⟩
      simp only [decide_eq_true_eq, Decidable.not_not]
      exact List.mem_filter.mpr ⟨hx, hall x hx1 (by omega)⟩
    simp only [inferPhaseState, hnone, Option.getD_none]
  · -- minimality of the current phase
    intro p hp1 hp2 hpc
    cases hf : (List.range' 1 8).find?
        (fun q => decide (q ∉ (List.range' 1 8).filter (phaseCompleted ex chs tc))) with
    | none =>
      rw [List.find?_eq_none] at hf
      have hmemp : p ∈ List.range' 1 8 := List.mem_range'_1.mpr ⟨hp1, by omega⟩
      have := hf p hmemp
      simp only [decide_eq_true_eq, Decidable.not_not] at this
      have := (List.mem_filter.mp this).2
      rw [hpc] at this
      exact absurd this (by simp)
    | some a =>
      have hle := find?_le_of_pairwise_le _ _ a (by decide) hf p
        (List.mem_range'_1.mpr ⟨hp1, by omega⟩)
        (by
          simp only [decide_eq_true_eq]
          intro hmemf
          have := (List.mem_filter.mp hmemf).2
          rw [hpc] at this
          exact absurd this (by simp))
      simp only [inferPhaseState, hf, Option.getD_some]
      exact hle
  · -- the current phase is 8 or itself incomplete
    cases hf : (List.range' 1 8).find?
        (fun q => decide (q ∉ (List.range' 1 8).filter (phaseCompleted ex chs tc))) with
    | none =>
      left
      simp only [inferPhaseState, hf, Option.getD_none]
    | some a =>
      right
      have hpred := List.find?_some hf
      have hmema := List.mem_of_find?_eq_some hf
      rcases List.mem_range'_1.mp hmema with ⟨ha1, ha2⟩
      simp only [decide_eq_true_eq] at hpred
      have hnotdone : phaseCompleted ex chs tc a = false := by
        by_contra hcon
        have hdone : phaseCompleted ex chs tc a = true := by
          cases h : phaseCompleted ex chs tc a
          · exact absurd h hcon
          · rfl
        exact hpred (List.mem_filter.mpr ⟨hmema, hdone⟩)
      simp only [inferPhaseState, hf, Option.getD_some]
      exact ⟨ha1, by omega, hnotdone⟩

/-- Witness for `c1_phase_inference_amended`: in the phase-1/phase-2
scenario, phase 3 is incomplete, so minimality bounds the current phase
by 3, and the concrete run returns current phase 3. -/
theorem c1_phase_inference_amended_witness :
    (inferPhaseState phase12Oracle [] none).2.1 ≤ 3 :=
  (c1_phase_inference_amended phase12Oracle [] none).2.2.2.1 3
    (by decide) (by decide) (by decide)

/-! ### Lookup lemmas for the manifest deep merge -/

theorem hasField_of_lookupField_some (base : List (String × Json)) (k : String)
    (w : Json) (h : lookupField base k = some w) : hasField base k = true := by
  simp only [lookupField, Option.map_eq_some'] at h
  rcases h with ⟨kv, hkv, _⟩
  have hmem := List.mem_of_find?_eq_some hkv
  have hpred := List.find?_some hkv
  simp only [hasField, List.any_eq_true]
  exact ⟨kv, hmem, hpred⟩

theorem lookupField_none_of_hasField_false (base : List (String × Json))
    (k : String) (h : hasField base k = false) : lookupField base k = none := by
  induction base with
  | nil => rfl
  | cons a t ih =>
    simp only [hasField, List.any_cons, Bool.or_eq_false_iff] at h
    unfold lookupField
    rw [List.find?_cons_of_neg _ (by simp [h.1])]
    exact ih (by simp [hasField, h.2])

theorem lookupField_setField_self (base : List (String × Json)) (k : String)
    (v : Json) (h : hasField base k = true) :
    lookupField (setField base k v) k = some v := by
  induction base with
  | nil => simp [hasField] at h
  | cons a t ih =>
    by_cases ha : a.1 = k
    · simp [setField, lookupField, List.find?_cons_of_pos, ha]
    · simp only [hasField, List.any_cons] at h
      have ht : hasField t k = true := by
        rcases Bool.or_eq_true_iff.mp h with h1 | h1
        · exact absurd (by simpa using h1) ha
        · exact h1
      simp only [setField, List.map_cons, if_neg ha]
      rw [lookupField, List.find?_cons_of_neg _ (by simp [ha])]
      exact ih ht

theorem lookupField_setField_ne (base : List (String × Json)) (k k' : String)
    (v : Json) (h : k ≠ k') : lookupField (setField base k' v) k = lookupField base k := by
  induction base with
  | nil => rfl
  | cons a t ih =>
    by_cases ha : a.1 = k'
    · have hne : ¬((k', v).1 = k) := by simp [h.symm]
      have hane : ¬(a.1 = k) := by rw [ha]; exact fun hc => h hc.symm
      simp only [setField, List.map_cons, if_pos ha]
      rw [lookupField, List.find?_cons_of_neg _ (by simpa using hne)]
      rw [lookupField, List.find?_cons_of_neg _ (by simpa using hane)]
      exact ih
    · simp only [setField, List.map_cons, if_neg ha]
      by_cases hak : a.1 = k
      · rw [lookupField, List.find?_cons_of_pos _ (by simpa using hak)]
        rw [lookupField, List.find?_cons_of_pos _ (by simpa using hak)]
      · rw [lookupField, List.find?_cons_of_neg _ (by simpa using hak)]
        rw [lookupField, List.find?_cons_of_neg _ (by simpa using hak)]
        exact ih

theorem lookupField_append_ne (base : List (String × Json)) (k k' : String)
    (v : Json) (h : k ≠ k') :
    lookupField (base ++ [(k', v)]) k = lookupField base k := by
  induction base with
  | nil =>
    simp only [List.nil_append, lookupField]
    rw [List.find?_cons_of_neg _ (by simp [h.symm])]
  | cons a t ih =>
    by_cases hak : a.1 = k
    · rw [List.cons_append, lookupField, List.find?_cons_of_pos _ (by simpa using hak)]
      rw [lookupField, List.find?_cons_of_pos _ (by simpa using hak)]
    · rw [List.cons_append, lookupField, List.find?_cons_of_neg _ (by simpa using hak)]
      rw [lookupField, List.find?_cons_of_neg _ (by simpa using hak)]
      exact ih

theorem lookupField_append_self (base : List (String × Json)) (k : String)
    (v : Json) (h : hasField base k = false) :
    lookupField (base ++ [(k, v)]) k = some v := by
  induction base with
  | nil => simp [lookupField, List.find?_cons_of_pos]
  | cons a t ih =>
    simp only [hasField, List.any_cons, Bool.or_eq_false_iff] at h
    rw [List.cons_append, lookupField, List.find?_cons_of_neg _ (by simp [h.1])]
    exact ih (by simp [hasField, h.2])

theorem mergeValue_not_both_obj (o : Option Json) (v : Json)
    (h : ∀ bo uo, ¬(o = some (Json.obj bo) ∧ v = Json.obj uo)) :
    mergeValue o v = v := by
  unfold mergeValue
  split
  · rename_i bo uo
    exact absurd ⟨rfl, rfl⟩ (h bo uo)
  · rfl

theorem lookupField_isSome_of_hasField (base : List (String × Json))
    (k : String) (h : hasField base k = true) :
    ∃ w, lookupField base k = some w := by
  induction base with
  | nil => simp [hasField] at h
  | cons a t ih =>
    by_cases ha : a.1 = k
    · exact ⟨a.2, by simp [lookupField, List.find?_cons_of_pos, ha]⟩
    · simp only [hasField, List.any_cons] at h
      have ht : hasField t k = true := by
        rcases Bool.or_eq_true_iff.mp h with h1 | h1
        · exact absurd (by simpa using h1) ha
        · exact h1
      obtain ⟨w, hw⟩ := ih ht
      refine ⟨w, ?_⟩
      rw [lookupField, List.find?_cons_of_neg _ (by simpa using ha)]
      exact hw

theorem deepMergeField_lookup_self (base : List (String × Json)) (k : String)
    (v : Json) :
    lookupField (deepMergeField base k v) k = some (mergeValue (lookupField base k) v) := by
  rcases hlook : lookupField base k with _ | bv
  · have hhf : hasField base k = false := by
      cases hf : hasField base k
      · rfl
      · obtain ⟨w, hw⟩ := lookupField_isSome_of_hasField base k hf
        rw [hlook] at hw
        cases hw
    have hred : deepMergeField base k v = base ++ [(k, v)] := by
      unfold deepMergeField
      rw [hlook]
      show (if hasField base k then setField base k v else base ++ [(k, v)])
          = base ++ [(k, v)]
      rw [if_neg (by simp [hhf])]
    rw [hred, lookupField_append_self base k v hhf]
    cases v <;> rfl
  · have hhf := hasField_of_lookupField_some base k bv hlook
    cases bv with
    | obj bo =>
      cases v with
      | obj uo =>
        have hred : deepMergeField base k (Json.obj uo)
            = setField base k (Json.obj (deepMergeFields bo uo)) := by
          unfold deepMergeField
          rw [hlook]
        rw [hred, lookupField_setField_self base k _ hhf]
        rfl
      | null =>
        have hred : deepMergeField base k Json.null
            = if hasField base k then setField base k Json.null
              else base ++ [(k, Json.null)] := by
          unfold deepMergeField
          rw [hlook]
        rw [hred, if_pos hhf, lookupField_setField_self base k _ hhf]
        rfl
      | bool b =>
        have hred : deepMergeField base k (Json.bool b)
            = if hasField base k then setField base k (Json.bool b)
              else base ++ [(k, Json.bool b)] := by
          unfold deepMergeField
          rw [hlook]
        rw [hred, if_pos hhf, lookupField_setField_self base k _ hhf]
        rfl
      | num n =>
        have hred : deepMergeField base k (Json.num n)
            = if hasField base k then setField base k (Json.num n)
              else base ++ [(k, Json.num n)] := by
          unfold deepMergeField
          rw [hlook]
        rw [hred, if_pos hhf, lookupField_setField_self base k _ hhf]
        rfl
      | str s =>
        have hred : deepMergeField base k (Json.str s)
            = if hasField base k then setField base k (Json.str s)
              else base ++ [(k, Json.str s)] := by
          unfold deepMergeField
          rw [hlook]
        rw [hred, if_pos hhf, lookupField_setField_self base k _ hhf]
        rfl
      | arr items =>
        have hred : deepMergeField base k (Json.arr items)
            = if hasField base k then setField base k (Json.arr items)
              else base ++ [(k, Json.arr items)] := by
          unfold deepMergeField
          rw [hlook]
        rw [hred, if_pos hhf, lookupField_setField_self base k _ hhf]
        rfl
    | null =>
      have hred : deepMergeField base k v
          = if hasField base k then setField base k v else base ++ [(k, v)] := by
        unfold deepMergeField
        rw [hlook]
      rw [hred, if_pos hhf, lookupField_setField_self base k _ hhf]
      rfl
    | bool b =>
      have hred : deepMergeField base k v
          = if hasField base k then setField base k v else base ++ [(k, v)] := by
        unfold deepMergeField
        rw [hlook]
      rw [hred, if_pos hhf, lookupField_setField_self base k _ hhf]
      rfl
    | num n =>
      have hred : deepMergeField base k v
          = if hasField base k then setField base k v else base ++ [(k, v)] := by
        unfold deepMergeField
        rw [hlook]
      rw [hred, if_pos hhf, lookupField_setField_self base k _ hhf]
      rfl
    | str s =>
      have hred : deepMergeField base k v
          = if hasField base k then setField base k v else base ++ [(k, v)] := by
        unfold deepMergeField
        rw [hlook]
      rw [hred, if_pos hhf, lookupField_setField_self base k _ hhf]
      rfl
    | arr items =>
      have hred : deepMergeField base k v
          = if hasField base k then setField base k v else base ++ [(k, v)] := by
        unfold deepMergeField
        rw [hlook]
      rw [hred, if_pos hhf, lookupField_setField_self base k _ hhf]
      rfl

theorem deepMergeField_lookup_ne (base : List (String × Json)) (k k' : String)
    (v : Json) (h : k ≠ k') :
    lookupField (deepMergeField base k' v) k = lookupField base k := by
  unfold deepMergeField
  split
  · exact lookupField_setField_ne base k k' _ h
  · split
    · exact lookupField_setField_ne base k k' _ h
    · exact lookupField_append_ne base k k' _ h

theorem deepMergeFields_lookup_not_mem (base patch : List (String × Json))
    (k : String) (h : k ∉ keysOf patch) :
    lookupField (deepMergeFields base patch) k = lookupField base k := by
  induction patch generalizing base with
  | nil => rfl
  | cons a rest ih =>
    obtain ⟨k', v'⟩ := a
    simp only [keysOf, List.map_cons, List.mem_cons, not_or] at h
    show lookupField (deepMergeFields (deepMergeField base k' v') rest) k = _
    rw [ih _ (by simpa [keysOf] using h.2)]
    exact deepMergeField_lookup_ne base k k' v' h.1

theorem deepMergeFields_lookup_mem (base patch : List (String × Json))
    (k : String) (v : Json) (hnd : (keysOf patch).Nodup)
    (hp : lookupField patch k = some v) :
    lookupField (deepMergeFields base patch) k
      = some (mergeValue (lookupField base k) v) := by
  induction patch generalizing base with
  | nil => simp [lookupField] at hp
  | cons a rest ih =>
    obtain ⟨k', v'⟩ := a
    simp only [keysOf, List.map_cons, List.nodup_cons] at hnd
    by_cases hk : k' = k
    · subst hk
      have hv : v' = v := by
        rw [lookupField, List.find?_cons_of_pos _ (by simp)] at hp
        simpa using hp
      subst hv
      show lookupField (deepMergeFields (deepMergeField base k' v') rest) k' = _
      rw [deepMergeFields_lookup_not_mem _ rest k' (by simpa [keysOf] using hnd.1)]
      exact deepMergeField_lookup_self base k' v'
    · have hp' : lookupField rest k = some v := by
        rw [lookupField, List.find?_cons_of_neg _ (by simp [hk])] at hp
        exact hp
      show lookupField (deepMergeFields (deepMergeField base k' v') rest) k = _
      rw [ih _ hnd.2 hp']
      rw [deepMergeField_lookup_ne base k k' v' (fun hc => hk hc.symm)]

/-! ### C6: manifest deep merge -/

/-- **C6.** The manifest update deep-merges the patch key by key: keys
absent from the patch are untouched; a key holding a mapping on both
sides recurses; any other patched key takes the patch value outright, in
particular a list value replaces the prior list wholesale rather than
concatenating; and merging a document holding `b = 1` under `a` into one
holding `b = 0, c = 2` under `a` yields `b = 1, c = 2` under `a`. -/
theorem c6_manifest_deep_merge :
    (∀ base patch : List (String × Json), ∀ k, k ∉ keysOf patch →
        lookupField (deepMergeFields base patch) k = lookupField base k) ∧
    (∀ base patch : List (String × Json), ∀ k bo uo, (keysOf patch).Nodup →
        lookupField base k = some (Json.obj bo) →
        lookupField patch k = some (Json.obj uo) →
        lookupField (deepMergeFields base patch) k
          = some (Json.obj (deepMergeFields bo uo))) ∧
    (∀ base patch : List (String × Json), ∀ k v, (keysOf patch).Nodup →
        lookupField patch k = some v →
        (∀ bo uo, ¬(lookupField base k = some (Json.obj bo) ∧ v = Json.obj uo)) →
        lookupField (deepMergeFields base patch) k = some v) ∧
    (∀ base patch : List (String × Json), ∀ k items, (keysOf patch).Nodup →
        lookupField patch k = some (Json.arr items) →
        lookupField (deepMergeFields base patch) k = some (Json.arr items)) ∧
    deepMergeFields
        [("a", Json.obj [("b", Json.num 0), ("c", Json.num 2)])]
        [("a", Json.obj [("b", Json.num 1)])]
      = [("a", Json.obj [("b", Json.num 1), ("c", Json.num 2)])] := by
  refine ⟨deepMergeFields_lookup_not_mem, ?_, ?_, ?_, rfl⟩
  · intro base patch k bo uo hnd hb hpv
    rw [deepMergeFields_lookup_mem base patch k _ hnd hpv, hb]
    rfl
  · intro base patch k v hnd hpv hnb
    rw [deepMergeFields_lookup_mem base patch k v hnd hpv,
      mergeValue_not_both_obj _ _ hnb]
  · intro base patch k items hnd hpv
    rw [deepMergeFields_lookup_mem base patch k _ hnd hpv,
      mergeValue_not_both_obj]
    intro bo uo h
    exact absurd h.2 (by simp)

/-- Witness for `c6_manifest_deep_merge`: a list-valued key is replaced
in full, never concatenated. -/
theorem c6_manifest_deep_merge_witness :
    lookupField
        (deepMergeFields [("x", Json.arr [Json.num 1])]
          [("x", Json.arr [Json.num 2, Json.num 3])]) "x"
      = some (Json.arr [Json.num 2, Json.num 3]) :=
  c6_manifest_deep_merge.2.2.2.1 [("x", Json.arr [Json.num 1])]
    [("x", Json.arr [Json.num 2, Json.num 3])] "x" [Json.num 2, Json.num 3]
    (by simp [keysOf]) rfl

/-! ### C10: implicit project creation on write and manifest update -/

/-- **C10.** Writing an artifact and updating the manifest never fail for
a missing project: both create the project directory implicitly, and a
manifest update on a never-initialized project merges the patch into the
default skeleton; reading an artifact of a nonexistent project fails with
NotFound. -/
theorem c10_implicit_project_creation (s : VaultState)
    (pid path content : String) (patch : List (String × Json)) :
    (novelWriteText s pid path content).isOk = true ∧
    (∀ s' bytes, novelWriteText s pid path content = .ok (s', bytes) →
        s'.projects.contains pid = true ∧ lookupFile s' pid path = some content) ∧
    (novelUpdateManifest s pid patch).isOk = true ∧
    (∀ s' m, lookupManifest s pid = none →
        novelUpdateManifest s pid patch = .ok (s', m) →
        m = deepMergeFields (defaultManifest pid) patch ∧
        s'.projects.contains pid = true ∧ lookupManifest s' pid = some m) ∧
    (s.projects.contains pid = false →
        novelReadText s pid path = .error .notFound) := by
  refine ⟨rfl, ?_, rfl, ?_, ?_⟩
  · intro s' bytes h
    simp only [novelWriteText, Except.ok.injEq, Prod.mk.injEq] at h
    obtain ⟨hs, _⟩ := h
    constructor
    · rw [← hs]
      show (ensureDir s pid).projects.contains pid = true
      simp only [ensureDir]
      split
      · assumption
      · simp
    · rw [← hs]
      simp [lookupFile, List.find?_cons_of_pos]
  · intro s' m hnone h
    simp only [novelUpdateManifest, Except.ok.injEq, Prod.mk.injEq] at h
    obtain ⟨hs, hm⟩ := h
    rw [hnone] at hs hm
    refine ⟨hm.symm, ?_, ?_⟩
    · rw [← hs]
      show (ensureDir s pid).projects.contains pid = true
      simp only [ensureDir]
      split
      · assumption
      · simp
    · rw [← hs, ← hm]
      simp [lookupManifest, List.find?_cons_of_pos]
  · intro h
    have h' : pid ∉ s.projects := by simpa using h
    simp [novelReadText, h']

/-- Witness for `c10_implicit_project_creation`: on the empty vault the
missing-project read fails, a write lands in a freshly created project,
and a manifest update merges into the default skeleton. -/
theorem c10_implicit_project_creation_witness :
    novelReadText emptyVault "p" "f.md" = .error .notFound ∧
    lookupFile { projects := ["p"], files := [(("p", "f.md"), "hi")], manifests := [] } "p" "f.md" = some "hi" ∧
    lookupManifest { projects := ["p"], files := [], manifests := [("p", deepMergeFields (defaultManifest "p") [("title", Json.str "T")])] } "p"
      = some (deepMergeFields (defaultManifest "p") [("title", Json.str "T")]) := by
  refine ⟨?_, ?_, ?_⟩
  · exact (c10_implicit_project_creation emptyVault "p" "f.md" "hi" []).2.2.2.2 rfl
  · exact ((c10_implicit_project_creation emptyVault "p" "f.md" "hi" []).2.1 _ _ rfl).2
  · exact ((c10_implicit_project_creation emptyVault "p" "f.md" "hi"
      [("title", Json.str "T")]).2.2.2.1 _ _ rfl rfl).2.2

/-! ### C2: the phase-2 review/revision loop -/

theorem phase2_exhaust_aux (stream : Nat → Response)
    (regen : List Char → List Char → List Char) :
    ∀ fuel pos d,
      (∀ j, j < fuel →
        hasSub approveKey (normDecision stream (pos + 2 * j)) = false ∧
        hasSub reviseKey (normDecision stream (pos + 2 * j)) = true) →
      phase2ReviewLoopAux stream regen pos fuel d
        = (reviseChainFrom stream regen pos fuel d, .exhausted) := by
  intro fuel
  induction fuel with
  | zero => intro pos d _; rfl
  | succ f ih =>
    intro pos d h
    have h0 := h 0 (Nat.succ_pos f)
    rw [Nat.mul_zero, Nat.add_zero] at h0
    simp only [phase2ReviewLoopAux, reviseChainFrom]
    rw [if_neg (by simp [h0.1]), if_pos h0.2]
    exact ih (pos + 2) _ (fun j hj => by
      have hh := h (j + 1) (Nat.succ_lt_succ hj)
      rw [show pos + 2 * (j + 1) = pos + 2 + 2 * j by ring] at hh
      exact hh)

theorem phase2_window_aux (regen : List Char → List Char → List Char) :
    ∀ fuel pos d (stream stream' : Nat → Response),
      (∀ j, j < pos + 2 * fuel → stream j = stream' j) →
      phase2ReviewLoopAux stream regen pos fuel d
        = phase2ReviewLoopAux stream' regen pos fuel d := by
  intro fuel
  induction fuel with
  | zero => intros; rfl
  | succ f ih =>
    intro pos d stream stream' h
    have hp : stream pos = stream' pos := h pos (by omega)
    have hp1 : stream (pos + 1) = stream' (pos + 1) := h (pos + 1) (by omega)
    simp only [phase2ReviewLoopAux]
    rw [show normDecision stream pos = normDecision stream' pos by
      unfold normDecision; rw [hp]]
    rw [hp1]
    split_ifs
    · rfl
    · exact ih (pos + 2) _ stream stream' (fun j hj => h j (by omega))
    · rfl

/-- **C2.** The phase-2 review loop classifies the operator's decision by
case-insensitive substring over the stripped, uppercased text: a decision
containing APPROVE terminates the loop with the current draft approved; a
decision containing REVISE (and not APPROVE) consumes a further
revision-notes response, regenerates the draft, and returns to review;
any other decision terminates the loop approved by default; the loop is
bounded by 5 iterations, its result depends only on the (at most 10)
responses those iterations can consume, and five consecutive REVISE
decisions exhaust the bound and return the latest regenerated draft; a
lowercase decision behaves like its uppercase form. -/
theorem c2_revision_loop (stream : Nat → Response)
    (regen : List Char → List Char → List Char) (d0 : List Char) :
    (hasSub approveKey (normDecision stream 0) = true →
      phase2GenerateSeriesOutline false stream regen d0 = (d0, .approved)) ∧
    (hasSub approveKey (normDecision stream 0) = false →
      hasSub reviseKey (normDecision stream 0) = true →
      phase2GenerateSeriesOutline false stream regen d0
        = phase2ReviewLoopAux stream regen 2 4
            (regen d0 (getResponseValue (stream 1) "revision_notes"))) ∧
    (hasSub approveKey (normDecision stream 0) = false →
      hasSub reviseKey (normDecision stream 0) = false →
      phase2GenerateSeriesOutline false stream regen d0 = (d0, .defaultApproved)) ∧
    ((∀ j, j < 5 →
        hasSub approveKey (normDecision stream (2 * j)) = false ∧
        hasSub reviseKey (normDecision stream (2 * j)) = true) →
      phase2GenerateSeriesOutline false stream regen d0
        = (reviseChainFrom stream regen 0 5 d0, .exhausted)) ∧
    (∀ stream' : Nat → Response, (∀ j, j < 10 → stream j = stream' j) →
      phase2GenerateSeriesOutline false stream regen d0
        = phase2GenerateSeriesOutline false stream' regen d0) ∧
    phase2GenerateSeriesOutline false (fun _ => [("decision", "approve")]) regen d0
      = (d0, .approved) := by
  refine ⟨?_, ?_, ?_, ?_, ?_, by rfl⟩
  · intro h
    show phase2ReviewLoopAux stream regen 0 (4 + 1) d0 = (d0, .approved)
    simp only [phase2ReviewLoopAux]
    rw [if_pos h]
  · intro ha hr
    show phase2ReviewLoopAux stream regen 0 (4 + 1) d0 = _
    simp only [phase2ReviewLoopAux]
    rw [if_neg (by simp [ha]), if_pos hr]
  · intro ha hr
    show phase2ReviewLoopAux stream regen 0 (4 + 1) d0 = (d0, .defaultApproved)
    simp only [phase2ReviewLoopAux]
    rw [if_neg (by simp [ha]), if_neg (by simp [hr])]
  · intro h
    show phase2ReviewLoopAux stream regen 0 5 d0 = _
    exact phase2_exhaust_aux stream regen 5 0 d0 (fun j hj => by
      simpa using h j hj)
  · intro stream' hw
    show phase2ReviewLoopAux stream regen 0 5 d0
        = phase2ReviewLoopAux stream' regen 0 5 d0
    exact phase2_window_aux regen 5 0 d0 stream stream' (fun j hj => hw j (by omega))

/-- Witness for `c2_revision_loop`: five lowercase revise decisions
exhaust the bound and the latest draft is returned. -/
theorem c2_revision_loop_witness :
    phase2GenerateSeriesOutline false (fun _ => [("decision", "revise")])
        (fun d _ => d) []
      = (reviseChainFrom (fun _ => [("decision", "revise")]) (fun d _ => d) 0 5 [],
          LoopOutcome.exhausted) :=
  (c2_revision_loop (fun _ => [("decision", "revise")]) (fun d _ => d) []).2.2.2.1
    (by decide)

/-! ### C4: the human review gate -/

theorem popMatch_isSome_iff (expected : List String) (inbox : List Response) :
    (popMatch expected inbox).isSome = inboxSatisfied inbox expected := by
  induction inbox with
  | nil => rfl
  | cons r rs ih =>
    simp only [popMatch, inboxSatisfied, List.any_cons]
    by_cases h : responseMatches expected r = true
    · rw [if_pos h, h]
      simp
    · have hf : responseMatches expected r = false := by simpa using h
      rw [if_neg h, hf]
      simp only [Bool.false_or]
      cases hp : popMatch expected rs with
      | none =>
        rw [hp] at ih
        simp only [inboxSatisfied] at ih
        simpa using ih
      | some p =>
        obtain ⟨m, rest⟩ := p
        rw [hp] at ih
        simp only [inboxSatisfied] at ih
        simpa using ih

theorem popMatch_eq_some (expected : List String) (inbox : List Response)
    (m : Response) :
    ∀ rest, popMatch expected inbox = some (m, rest) →
      responseMatches expected m = true ∧
      ∃ l1 l2, inbox = l1 ++ m :: l2 ∧ rest = l1 ++ l2 := by
  induction inbox with
  | nil => intro rest h; simp [popMatch] at h
  | cons r rs ih =>
    intro rest h
    simp only [popMatch] at h
    by_cases hr : responseMatches expected r = true
    · rw [if_pos hr] at h
      simp only [Option.some.injEq, Prod.mk.injEq] at h
      obtain ⟨h1, h2⟩ := h
      subst h1
      subst h2
      exact ⟨hr, [], rs, rfl, rfl⟩
    · rw [if_neg hr] at h
      cases hp : popMatch expected rs with
      | none => rw [hp] at h; cases h
      | some p =>
        obtain ⟨m', rest'⟩ := p
        rw [hp] at h
        simp only [Option.some.injEq, Prod.mk.injEq] at h
        obtain ⟨h1, h2⟩ := h
        subst h1
        obtain ⟨hm, l1, l2, hi, hr2⟩ := ih rest' hp
        refine ⟨hm, r :: l1, l2, ?_, ?_⟩
        · rw [List.cons_append, hi]
        · rw [← h2, hr2]
          rfl

/-- **C4 counterexample.** The phase-2 controller's gate is satisfied by
an inbound response that contains none of the currently-expected keys
(its signal handler fills the single slot unconditionally, and its wait
condition only checks that the slot is non-None), refuting the claim for
"every phase controller's human review gate": under the claimed rule this
inbox would leave the gate unsatisfied. -/
theorem c4_phase2_gate_counterexample :
    phase2WaitSatisfied (phase2SignalReceived none [("other_key", "x")]) = true ∧
    responseMatches ["decision"] [("other_key", "x")] = false ∧
    inboxSatisfied [[("other_key", "x")]] ["decision"] = false := by
  exact ⟨rfl, by decide, by decide⟩

/-- **C4 (amended).** For the phase-7 single-chapter controller's gate,
the wait is satisfied exactly when some inbound response contains at
least one of the currently-expected input keys; receiving then removes
the first such response and every key-value pair of any pending response
whose key is not currently expected is retained in the remaining inbox
for a later wait.  (Phase-2-style controllers instead use a single
response slot satisfied by any inbound response; see the
counterexample.) -/
theorem c4_gate_amended (inbox : List Response) (expected : List String) :
    (inboxSatisfied inbox expected = true ↔
        ∃ item ∈ inbox, ∃ k ∈ expected, ∃ kv ∈ item, kv.1 = k) ∧
    ((awaitHumanInput inbox expected).isSome = inboxSatisfied inbox expected) ∧
    (∀ received rest, awaitHumanInput inbox expected = some (received, rest) →
        responseMatches expected received = true ∧
        ∀ item ∈ inbox, ∀ kv ∈ item, expected.contains kv.1 = false →
          ∃ item' ∈ rest, kv ∈ item') := by
  refine ⟨?_, ?_, ?_⟩
  · simp only [inboxSatisfied, responseMatches, List.any_eq_true, decide_eq_true_eq]
  · have hps := popMatch_isSome_iff expected inbox
    cases hp : popMatch expected inbox with
    | none =>
      rw [hp] at hps
      simp only [awaitHumanInput, hp]
      simpa using hps
    | some p =>
      obtain ⟨m, r⟩ := p
      rw [hp] at hps
      simp only [awaitHumanInput, hp]
      split <;> simpa using hps
  · intro received rest h
    cases hp : popMatch expected inbox with
    | none =>
      simp only [awaitHumanInput, hp] at h
      exact Option.noConfusion h
    | some p =>
      obtain ⟨m, rest'⟩ := p
      simp only [awaitHumanInput, hp] at h
      obtain ⟨hm, l1, l2, hi, hr⟩ := popMatch_eq_some expected inbox m rest' hp
      by_cases hfil : m.filter (fun kv => ¬ expected.contains kv.1) = []
      · -- no extra keys: retention is vacuous for the popped response
        rw [if_pos hfil] at h
        simp only [Option.some.injEq, Prod.mk.injEq] at h
        obtain ⟨h1, h2⟩ := h
        subst h1
        refine ⟨hm, ?_⟩
        intro item hitem kv hkv hke
        rw [hi] at hitem
        rcases List.mem_append.mp hitem with hin | hin
        · exact ⟨item, by rw [← h2, hr]; exact List.mem_append_left _ hin, hkv⟩
        · rcases List.mem_cons.mp hin with hin | hin
          · exfalso
            subst hin
            have := List.filter_eq_nil_iff.mp hfil kv hkv
            simp only [decide_eq_true_eq] at this
            exact this (by simpa using hke)
          · exact ⟨item, by rw [← h2, hr]; exact List.mem_append_right _ hin, hkv⟩
      · rw [if_neg hfil] at h
        simp only [Option.some.injEq, Prod.mk.injEq] at h
        obtain ⟨h1, h2⟩ := h
        subst h1
        refine ⟨hm, ?_⟩
        intro item hitem kv hkv hke
        rw [hi] at hitem
        rcases List.mem_append.mp hitem with hin | hin
        · refine ⟨item, ?_, hkv⟩
          rw [← h2]
          exact List.mem_cons_of_mem _ (hr ▸ List.mem_append_left _ hin)
        · rcases List.mem_cons.mp hin with hin | hin
          · subst hin
            refine ⟨item.filter (fun kv => ¬ expected.contains kv.1), ?_, ?_⟩
            · rw [← h2]
              exact List.mem_cons_self _ _
            · exact List.mem_filter.mpr ⟨hkv, by simpa using hke⟩
          · refine ⟨item, ?_, hkv⟩
            rw [← h2]
            exact List.mem_cons_of_mem _ (hr ▸ List.mem_append_right _ hin)

/-- Witness for `c4_gate_amended`: an extra key of the consumed response
survives into the remaining inbox, and an out-of-order non-matching
response is retained untouched. -/
theorem c4_gate_amended_witness :
    ∃ item' ∈ ([[("side", "s")], [("other", "o")]] : List Response),
      ("side", "s") ∈ item' :=
  ((c4_gate_amended [[("other", "o")], [("decision", "APPROVE"), ("side", "s")]]
      ["decision"]).2.2
    [("decision", "APPROVE"), ("side", "s")] [[("side", "s")], [("other", "o")]]
    rfl).2
    [("decision", "APPROVE"), ("side", "s")] (by simp) ("side", "s") (by simp)
    (by decide)

/-! ### C5 and C9: the outline parser -/

theorem enumFrom_map_fst_succ (cs : List (Nat × List Char)) :
    ∀ n, ((List.enumFrom n cs).map (fun p => p.1 + 1)) = List.range' (n + 1) cs.length := by
  induction cs with
  | nil => intro n; rfl
  | cons a t ih =>
    intro n
    simp only [List.enumFrom, List.map_cons, List.length_cons]
    rw [List.range'_succ]
    rw [ih (n + 1)]

theorem enumFrom_map_snd (cs : List (Nat × List Char)) :
    ∀ n, ((List.enumFrom n cs).map (fun p => p.2.2)) = cs.map Prod.snd := by
  induction cs with
  | nil => intro n; rfl
  | cons a t ih =>
    intro n
    simp only [List.enumFrom, List.map_cons]
    rw [ih (n + 1)]

theorem nonDecr_of_pairwise_le (l : List Nat) (h : l.Pairwise (· ≤ ·)) :
    nonDecr l = true := by
  induction l with
  | nil => rfl
  | cons a t ih =>
    rcases List.pairwise_cons.mp h with ⟨ha, ht⟩
    cases t with
    | nil => rfl
    | cons b u =>
      simp only [nonDecr, Bool.and_eq_true]
      exact ⟨by simpa using ha b (List.mem_cons_self b u), ih ht⟩

theorem hasDupNums_eq_false_of_pairwise_lt (l : List Nat)
    (h : l.Pairwise (· < ·)) : hasDupNums l = false := by
  induction l with
  | nil => rfl
  | cons a t ih =>
    rcases List.pairwise_cons.mp h with ⟨ha, ht⟩
    have hnm : a ∉ t := fun hm => absurd (ha a hm) (lt_irrefl a)
    simp only [hasDupNums, Bool.or_eq_false_iff]
    exact ⟨by simpa using hnm, ih ht⟩

/-- **C5.** The parser tries the heading pattern first and uses the
table-row fallback only when the heading pattern yields zero matches;
when the extracted numbers contain a duplicate or are not non-decreasing
in encounter order, the repair pass emits exactly as many chapters,
renumbered 1..N in encounter order with titles untouched; when the
numbers are strictly increasing they are preserved unchanged; four
concrete runs exercise the fallback order, the table path, the
duplicate repair, and the non-monotonic repair with a heading whose
whitespace-only title strips to empty. -/
theorem c5_outline_parsing :
    (∀ content : List Char, scanHeadings content ≠ [] →
      parseOutlineChapters content = repairNumbers (scanHeadings content)) ∧
    (∀ content : List Char, scanHeadings content = [] →
      parseOutlineChapters content = repairNumbers (scanTable content)) ∧
    (∀ cs : List (Nat × List Char), cs ≠ [] →
      (hasDupNums (cs.map Prod.fst) = true ∨ nonDecr (cs.map Prod.fst) = false) →
      (repairNumbers cs).length = cs.length ∧
      (repairNumbers cs).map Prod.fst = List.range' 1 cs.length ∧
      (repairNumbers cs).map Prod.snd = cs.map Prod.snd) ∧
    (∀ cs : List (Nat × List Char), (cs.map Prod.fst).Chain' (· < ·) →
      repairNumbers cs = cs) ∧
    parseOutlineChapters ("### Chapter 1: A\n| 2 | B | s |\n".data)
      = [(1, "A".data)] ∧
    parseOutlineChapters ("| 1 | A | s |\n| 2 | B | s |\n".data)
      = [(1, "A".data), (2, "B".data)] ∧
    parseOutlineChapters ("### Chapter 1: A\n### Chapter 1: B\n".data)
      = [(1, "A".data), (2, "B".data)] ∧
    parseOutlineChapters ("### Chapter 2: B\n### Chapter 1: \n".data)
      = [(1, "B".data), (2, [])] := by
  refine ⟨?_, ?_, ?_, ?_, by rfl, by rfl, by rfl, by rfl⟩
  · intro content h
    simp only [parseOutlineChapters, if_neg h]
  · intro content h
    simp only [parseOutlineChapters, if_pos h]
  · intro cs hne hcond
    have hcondb : (hasDupNums (cs.map Prod.fst) || !(nonDecr (cs.map Prod.fst))) = true := by
      rcases hcond with h | h <;> simp [h]
    simp only [repairNumbers, if_neg hne, if_pos hcondb]
    refine ⟨?_, ?_, ?_⟩
    · simp [renumber]
    · show ((cs.enum.map (fun p => (p.1 + 1, p.2.2))).map Prod.fst) = _
      rw [List.map_map]
      exact enumFrom_map_fst_succ cs 0
    · show ((cs.enum.map (fun p => (p.1 + 1, p.2.2))).map Prod.snd) = _
      rw [List.map_map]
      exact enumFrom_map_snd cs 0
  · intro cs hchain
    cases hcs : cs == [] with
    | true =>
      have : cs = [] := by simpa using hcs
      simp [repairNumbers, this]
    | false =>
      have hne : ¬ cs = [] := by simpa using hcs
      have hpl : (cs.map Prod.fst).Pairwise (· < ·) :=
        List.chain'_iff_pairwise.mp hchain
      have h1 : hasDupNums (cs.map Prod.fst) = false :=
        hasDupNums_eq_false_of_pairwise_lt _ hpl
      have h2 : nonDecr (cs.map Prod.fst) = true :=
        nonDecr_of_pairwise_le _ (hpl.imp le_of_lt)
      simp [repairNumbers, if_neg hne, h1, h2]

/-- Witness for `c5_outline_parsing`: non-monotonic numbers are
renumbered 1..N. -/
theorem c5_outline_parsing_witness :
    (repairNumbers [(7, "A".data), (3, "B".data)]).map Prod.fst
      = List.range' 1 2 :=
  (c5_outline_parsing.2.2.1 [(7, "A".data), (3, "B".data)] (by simp)
    (Or.inr (by decide))).2.1

/-- **C9 counterexample.** A generated outline containing the literal
`### Chapter` but no parseable chapter heading passes the phase-6
workflow validation, and the parser returns it as a successful
zero-chapter result (with the manifest side effect skipped) instead of
surfacing an InvalidArgument error. -/
theorem c9_zero_chapter_parse_success :
    outlineWorkflowGuard ("### Chapter one: Intro\n".data)
      = .ok ("### Chapter one: Intro\n".data) ∧
    novelParseOutline c9State "p" = .ok ([], false) :=
  ⟨rfl, rfl⟩

/-- **C9 (amended).** The parser fails with NotFound when the project or
the source outline artifact does not exist; an empty (or
whitespace-only) generated outline, or one lacking any `### Chapter`
occurrence, is rejected by the phase-6 outline workflow before saving;
an outline that passes that check but yields zero extractable chapters
is returned by the parser as a successful result with zero chapters. -/
theorem c9_outline_errors_amended (s : VaultState) (pid : String)
    (outline : List Char) :
    (s.projects.contains pid = true →
      lookupFile s pid "phase5_outputs/outline.md" = none →
      novelParseOutline s pid = .error .notFound) ∧
    (s.projects.contains pid = false →
      novelParseOutline s pid = .error .notFound) ∧
    (pyStrip outline = [] → (outlineWorkflowGuard outline).isOk = false) ∧
    (hasSub ("### Chapter".data) outline = false →
      (outlineWorkflowGuard outline).isOk = false) ∧
    (∀ content : String, s.projects.contains pid = true →
      lookupFile s pid "phase5_outputs/outline.md" = some content →
      novelParseOutline s pid
        = .ok (parseOutlineChapters content.data,
            !(parseOutlineChapters content.data).isEmpty)) := by
  refine ⟨?_, ?_, ?_, ?_, ?_⟩
  · intro h1 h2
    simp [novelParseOutline, h1, h2]
  · intro h
    have h' : pid ∉ s.projects := by simpa using h
    simp [novelParseOutline, h']
  · intro h
    unfold outlineWorkflowGuard
    rw [if_pos h]
    rfl
  · intro h
    unfold outlineWorkflowGuard
    split
    · rfl
    · rw [if_pos (by simp [h])]
      rfl
  · intro content h1 h2
    have h1' : pid ∈ s.projects := by simpa using h1
    simp [novelParseOutline, h1', h2]

/-- Witness for `c9_outline_errors_amended`: the parser fails NotFound on
a vault with no such project. -/
theorem c9_outline_errors_amended_witness :
    novelParseOutline emptyVault "p" = .error .notFound :=
  (c9_outline_errors_amended emptyVault "p" []).2.1 rfl

/-! ### String-normalization lemmas for the context bundle upsert -/

theorem pyLstrip_cons_of_not_ws (c : Char) (l : List Char) (hc : pyWs c = false) :
    pyLstrip (c :: l) = c :: l := by
  simp [pyLstrip, List.dropWhile_cons, hc]

theorem pyRstrip_append_of_ne (x y : List Char) (h : pyRstrip y ≠ []) :
    pyRstrip (x ++ y) = x ++ pyRstrip y := by
  have hne : (y.reverse.dropWhile pyWs).isEmpty = false := by
    cases hE : y.reverse.dropWhile pyWs with
    | nil =>
      exfalso
      apply h
      unfold pyRstrip
      rw [hE]
      rfl
    | cons a t => rfl
  unfold pyRstrip
  rw [List.reverse_append, List.dropWhile_append, if_neg (by simp [hne])]
  rw [List.reverse_append, List.reverse_reverse]

theorem pyRstrip_append_nl (x : List Char) : pyRstrip (x ++ ['\n']) = pyRstrip x := by
  unfold pyRstrip
  rw [List.reverse_append]
  simp [List.dropWhile_cons, pyWs]

theorem dropWhile_idem (p : Char → Bool) (l : List Char) :
    (l.dropWhile p).dropWhile p = l.dropWhile p := by
  induction l with
  | nil => rfl
  | cons a t ih =>
    by_cases hp : p a = true
    · simp only [List.dropWhile_cons, hp, if_true]
      exact ih
    · have hp' : p a = false := by simpa using hp
      simp [List.dropWhile_cons, hp']

theorem pyRstrip_idem (x : List Char) : pyRstrip (pyRstrip x) = pyRstrip x := by
  unfold pyRstrip
  rw [List.reverse_reverse, dropWhile_idem]

theorem pyRstrip_pyStrip (x : List Char) : pyRstrip (pyStrip x) = pyStrip x := by
  unfold pyStrip
  exact pyRstrip_idem _

theorem pyRstrip_cons_ne_nil (c : Char) (l : List Char) (hc : pyWs c = false) :
    pyRstrip (c :: l) ≠ [] := by
  intro hnil
  unfold pyRstrip at hnil
  have h2 : (c :: l).reverse.dropWhile pyWs = [] := by
    cases hE : (c :: l).reverse.dropWhile pyWs with
    | nil => rfl
    | cons a t => rw [hE] at hnil; simp at hnil
  have h3 := List.dropWhile_eq_nil_iff.mp h2 c (by simp)
  rw [hc] at h3
  exact absurd h3 (by simp)

theorem takeWhile_append_drop_self (p : Char → Bool) (l : List Char) :
    l.takeWhile p ++ l.drop (l.takeWhile p).length = l := by
  induction l with
  | nil => rfl
  | cons a t ih =>
    by_cases hp : p a = true
    · simp only [List.takeWhile_cons, hp, if_true, List.length_cons,
        List.cons_append, List.drop_succ_cons]
      rw [ih]
    · have hp' : p a = false := by simpa using hp
      simp [List.takeWhile_cons, hp']

theorem sfx_trans (a b c : List Char) (h1 : ∃ t, t ++ b = a) (h2 : ∃ u, u ++ c = b) :
    ∃ v, v ++ c = a := by
  obtain ⟨t, ht⟩ := h1
  obtain ⟨u, hu⟩ := h2
  exact ⟨t ++ u, by rw [List.append_assoc, hu, ht]⟩

theorem drop_sfx (n : Nat) (l : List Char) : ∃ t, t ++ l.drop n = l :=
  ⟨l.take n, List.take_append_drop n l⟩

theorem dropWhile_sfx (p : Char → Bool) (l : List Char) :
    ∃ t, t ++ l.dropWhile p = l :=
  ⟨l.takeWhile p, List.takeWhile_append_dropWhile p l⟩

theorem matchHeaderHere_sfx (h s after : List Char)
    (hm : matchHeaderHere h s = some after) : ∃ t, t ++ after = s := by
  unfold matchHeaderHere at hm
  split_ifs at hm with h1 h2 h3 h4
  · -- the whitespace run reaches the document end
    simp only [Option.some.injEq] at hm
    exact ⟨s, by rw [← hm, List.append_nil]⟩
  · cases hf : ((((s.drop 2).dropWhile pyWs).drop h.length).takeWhile pyWs).reverse.findIdx?
        (fun c => c = '\n') with
    | none => rw [hf] at hm; cases hm
    | some j =>
      rw [hf] at hm
      simp only [Option.some.injEq] at hm
      refine sfx_trans s (s.drop 2) after (drop_sfx 2 s) ?_
      refine sfx_trans _ ((s.drop 2).dropWhile pyWs) after (dropWhile_sfx _ _) ?_
      refine sfx_trans _ (((s.drop 2).dropWhile pyWs).drop h.length) after
        (drop_sfx _ _) ?_
      rw [← hm]
      exact drop_sfx _ _

theorem findHeaderSplit_sound (h : List Char) :
    ∀ fuel s pre after, findHeaderSplit h fuel s = some (pre, after) →
      ∃ X, s = pre ++ X ++ after := by
  intro fuel
  induction fuel with
  | zero => intro s pre after hf; cases hf
  | succ f ih =>
    intro s pre after hf
    cases hm : matchHeaderHere h s with
    | some a =>
      simp only [findHeaderSplit, hm, Option.some.injEq, Prod.mk.injEq] at hf
      obtain ⟨h1, h2⟩ := hf
      subst h1
      subst h2
      obtain ⟨t, ht⟩ := matchHeaderHere_sfx h s a hm
      exact ⟨t, by rw [List.nil_append, ht]⟩
    | none =>
      cases hd : s.drop ((s.takeWhile notNL).length) with
      | nil => simp [findHeaderSplit, hm, hd] at hf
      | cons nl rest =>
        cases hrec : findHeaderSplit h f rest with
        | none => simp [findHeaderSplit, hm, hd, hrec] at hf
        | some p =>
          obtain ⟨p', a'⟩ := p
          simp only [findHeaderSplit, hm, hd, hrec, Option.some.injEq,
            Prod.mk.injEq] at hf
          obtain ⟨h1, h2⟩ := hf
          obtain ⟨X, hX⟩ := ih rest p' a' hrec
          refine ⟨X, ?_⟩
          have hs : s = s.takeWhile notNL ++ (nl :: rest) := by
            rw [← hd]
            exact (takeWhile_append_drop_self _ s).symm
          rw [hs, hX, ← h1, ← h2]
          simp [List.append_assoc]

theorem findNextH2Split_sound :
    ∀ fuel s, s = (findNextH2Split fuel s).1 ++ (findNextH2Split fuel s).2 ∧
      ((findNextH2Split fuel s).2 = [] ∨
        isH2Start (findNextH2Split fuel s).2 = true) := by
  intro fuel
  induction fuel with
  | zero => intro s; exact ⟨by simp [findNextH2Split], Or.inl rfl⟩
  | succ f ih =>
    intro s
    by_cases h1 : isH2Start s = true
    · have he : findNextH2Split (f + 1) s = ([], s) := by
        simp [findNextH2Split, h1]
      rw [he]
      exact ⟨by simp, Or.inr h1⟩
    · cases hd : s.drop ((s.takeWhile notNL).length) with
      | nil =>
        have he : findNextH2Split (f + 1) s = (s, []) := by
          simp [findNextH2Split, h1, hd]
        rw [he]
        exact ⟨by simp, Or.inl rfl⟩
      | cons nl rest =>
        have he : findNextH2Split (f + 1) s
            = ((s.takeWhile notNL) ++ nl :: (findNextH2Split f rest).1,
                (findNextH2Split f rest).2) := by
          simp [findNextH2Split, h1, hd]
        rw [he]
        refine ⟨?_, (ih rest).2⟩
        have hs : s = s.takeWhile notNL ++ (nl :: rest) := by
          rw [← hd]
          exact (takeWhile_append_drop_self _ s).symm
        calc s = s.takeWhile notNL ++ (nl :: rest) := hs
          _ = s.takeWhile notNL
              ++ (nl :: ((findNextH2Split f rest).1 ++ (findNextH2Split f rest).2)) := by
            rw [← (ih rest).1]
          _ = (s.takeWhile notNL ++ nl :: (findNextH2Split f rest).1)
              ++ (findNextH2Split f rest).2 := by
            simp [List.append_assoc]

theorem isH2Start_shape (s : List Char) (h : isH2Start s = true) :
    ∃ c r, s = '#' :: '#' :: c :: r ∧ pyWs c = true := by
  unfold isH2Start at h
  split at h
  · rename_i c r
    exact ⟨c, r, rfl, h⟩
  · cases h

/-! ### C7: context bundle section upsert -/

/-- **C7 counterexample.** Upserting into a bundle that contains the
header does not leave all other sections byte-identical: the section
before the matched heading has its trailing whitespace normalized (a
single newline becomes a blank line), so the original bytes up to the
matched heading are not a segment of the output. -/
theorem c7_upsert_not_byte_identical :
    upsertContextBundleSection ("## A\nalpha\n## B\nbeta\n".data) ("B".data)
        ("new".data)
      = ("## A\nalpha\n\n## B\n\nnew\n".data) ∧
    leadsWith ("## A\nalpha\n## B".data)
        (upsertContextBundleSection ("## A\nalpha\n## B\nbeta\n".data) ("B".data)
          ("new".data))
      = false := by
  exact ⟨by rfl, by rfl⟩

/-- **C7 (amended).** The upsert is a no-op when the body (or header)
strips to empty.  When the bundle has no line matching the header, the
new heading and stripped body are appended after normalizing the
bundle's trailing whitespace, leaving all earlier bytes unchanged.  When
a header line matches, the output is: the text before the matched line,
its trailing whitespace normalized to a single blank line, then the
rewritten heading and the stripped new body, then the text from the next
level-2 heading on (the following sections), unchanged except for
normalization of the document's trailing whitespace; the text between
the matched heading and the next level-2 heading (the old section body)
is discarded wholesale. -/
theorem c7_upsert_amended :
    (∀ bundle header content : List Char, pyStrip content = [] →
      upsertContextBundleSection bundle header content = bundle) ∧
    (∀ bundle header content : List Char,
      pyStrip header ≠ [] → pyStrip content ≠ [] →
      findHeaderSplit (pyStrip header) ((pyRstrip bundle ++ ['\n']).length + 1)
          (pyRstrip bundle ++ ['\n']) = none →
      upsertContextBundleSection bundle header content
        = pyRstrip bundle ++ "\n\n## ".data ++ pyStrip header ++ "\n\n".data
            ++ pyStrip content ++ ['\n']) ∧
    (∀ bundle header content pre after : List Char,
      pyStrip header ≠ [] → pyStrip content ≠ [] →
      findHeaderSplit (pyStrip header) ((pyRstrip bundle ++ ['\n']).length + 1)
          (pyRstrip bundle ++ ['\n']) = some (pre, after) →
      (∃ X, pyRstrip bundle ++ ['\n'] = pre ++ X ++ after) ∧
      (∀ sec suf : List Char, findNextH2Split (after.length + 1) after = (sec, suf) →
        after = sec ++ suf ∧
        (suf = [] →
          upsertContextBundleSection bundle header content
            = pyRstrip pre ++ "\n\n## ".data ++ pyStrip header ++ "\n\n".data
                ++ pyStrip content ++ ['\n']) ∧
        (suf ≠ [] →
          upsertContextBundleSection bundle header content
            = pyRstrip pre ++ "\n\n## ".data ++ pyStrip header ++ "\n\n".data
                ++ pyStrip content ++ "\n\n".data ++ pyRstrip suf ++ ['\n']))) := by
  have hnc_r : ∀ content : List Char, pyStrip content ≠ [] →
      pyRstrip (pyStrip content) ≠ [] := by
    intro content hc
    rw [pyRstrip_pyStrip]
    exact hc
  refine ⟨?_, ?_, ?_⟩
  · intro bundle header content hc
    unfold upsertContextBundleSection
    by_cases h1 : pyStrip header = []
    · rw [if_pos h1]
    · rw [if_neg h1, if_pos hc]
  · intro bundle header content hh hc hfind
    have hu : upsertContextBundleSection bundle header content
        = pyRstrip (pyRstrip (pyRstrip bundle ++ ['\n']) ++ "\n\n## ".data
            ++ pyStrip header ++ "\n\n".data ++ pyStrip content ++ ['\n']) ++ ['\n'] := by
      unfold upsertContextBundleSection
      rw [if_neg hh, if_neg hc, hfind]
    rw [hu]
    rw [pyRstrip_append_nl, pyRstrip_append_nl, pyRstrip_idem]
    rw [pyRstrip_append_of_ne _ _ (hnc_r content hc), pyRstrip_pyStrip]
  · intro bundle header content pre after hh hc hfind
    refine ⟨findHeaderSplit_sound _ _ _ _ _ hfind, ?_⟩
    intro sec suf hsplit
    have hsound := findNextH2Split_sound (after.length + 1) after
    rw [hsplit] at hsound
    have hu : upsertContextBundleSection bundle header content
        = pyRstrip (pyRstrip pre ++ "\n\n## ".data ++ pyStrip header ++ "\n\n".data
            ++ pyStrip content ++ "\n\n".data
            ++ pyLstrip (findNextH2Split (after.length + 1) after).2) ++ ['\n'] := by
      unfold upsertContextBundleSection
      rw [if_neg hh, if_neg hc, hfind]
    rw [hsplit] at hu
    refine ⟨hsound.1, ?_, ?_⟩
    · intro hsuf
      subst hsuf
      rw [hu]
      show pyRstrip (pyRstrip pre ++ "\n\n## ".data ++ pyStrip header ++ "\n\n".data
          ++ pyStrip content ++ "\n\n".data ++ []) ++ ['\n'] = _
      rw [List.append_nil]
      have hsplit2 : pyRstrip pre ++ "\n\n## ".data ++ pyStrip header ++ "\n\n".data
          ++ pyStrip content ++ "\n\n".data
          = ((pyRstrip pre ++ "\n\n## ".data ++ pyStrip header ++ "\n\n".data
              ++ pyStrip content ++ ['\n']) ++ ['\n']) := by
        simp [List.append_assoc]
      rw [hsplit2, pyRstrip_append_nl, pyRstrip_append_nl]
      rw [pyRstrip_append_of_ne _ _ (hnc_r content hc), pyRstrip_pyStrip]
    · intro hsuf
      have hH2 : isH2Start suf = true := by
        rcases hsound.2 with h | h
        · exact absurd h hsuf
        · exact h
      obtain ⟨c, r, hshape, _⟩ := isH2Start_shape suf hH2
      have hlstrip : pyLstrip suf = suf := by
        rw [hshape]
        exact pyLstrip_cons_of_not_ws _ _ (by decide)
      have hrne : pyRstrip suf ≠ [] := by
        rw [hshape]
        exact pyRstrip_cons_ne_nil _ _ (by decide)
      rw [hu, hlstrip]
      rw [pyRstrip_append_of_ne _ _ hrne]

/-- Witness for `c7_upsert_amended`: the concrete replacement run of the
counterexample, derived by instantiating the found-header case. -/
theorem c7_upsert_amended_witness :
    upsertContextBundleSection ("## A\nalpha\n## B\nbeta\n".data) ("B".data)
        ("new".data)
      = pyRstrip ("## A\nalpha\n".data) ++ "\n\n## ".data
          ++ pyStrip ("B".data) ++ "\n\n".data ++ pyStrip ("new".data) ++ ['\n'] :=
  (((c7_upsert_amended.2.2 ("## A\nalpha\n## B\nbeta\n".data) ("B".data)
      ("new".data) ("## A\nalpha\n".data) ("\nbeta\n".data)
      (by decide) (by decide) (by rfl)).2
    ("\nbeta\n".data) [] (by rfl)).2.1) rfl

/-! ### C3: previous-chapter lookup -/

/-- **C3 (code bug).** For chapter numbers at most 1 the lookup returns
the sentinel without touching storage (here: it succeeds identically even
on the empty vault, where any storage access would raise NotFound), and
above 1 it searches only the legacy `phase6_outputs` convention: in a
vault where chapter 4 was finalized by the current phase-7 workflow under
`phase7_outputs/chapter_4/final.md`, the lookup for chapter 5 still
returns the sentinel with a warning, although the spec requires the
search to span both directory conventions. -/
theorem c3_previous_chapter_lookup_bug :
    novelGetPreviousChapterFinal emptyVault "p" 1 = .ok ("NONE", none) ∧
    novelGetPreviousChapterFinal c3State "p" 1 = .ok ("NONE", none) ∧
    lookupFile c3State "p" "phase7_outputs/chapter_4/final.md"
      = some "FINAL CHAPTER 4" ∧
    novelGetPreviousChapterFinal c3State "p" 5
      = .ok ("NONE", some "Chapter 4 not found") := by
  exact ⟨rfl, rfl, rfl, rfl⟩

end NovelWeaver
